import Mathlib

/-!
Verification of the Baudboard ordering-maintenance specification.

The repository ships the frontend type declarations
(`src/frontend/src/types/index.ts`) together with the task breakdown and
architecture documents; the backend routers and the frontend store that
implement the Position Maintainer are not part of the source tree.  The
data types below are embedded directly from `types/index.ts`; the
operations are modelled from the specification's Position Maintainer
section (§4.1) and the in-repo task breakdown, as noted on each
definition.
-/

namespace Baudboard

/-- Priority enumeration, from `src/frontend/src/types/index.ts` line 1. -/
inductive Priority where
  | none
  | low
  | medium
  | high
  | urgent
deriving DecidableEq, Repr

/-- Label entity, from `src/frontend/src/types/index.ts` lines 3-7. -/
structure Label where
  id : Nat
  name : String
  color : String
deriving DecidableEq, Repr

/-- Card, from `src/frontend/src/types/index.ts` lines 9-16.  The `labels`
field embeds label values (snapshots), not references. -/
structure Card where
  id : Nat
  title : String
  description : Option String
  priority : Priority
  labels : List Label
  column_id : Nat
deriving DecidableEq, Repr

/-- Column, from `src/frontend/src/types/index.ts` lines 18-22.  Its
`card_ids` list is the display order of the column's cards. -/
structure Column where
  id : Nat
  title : String
  card_ids : List Nat
deriving DecidableEq, Repr

/-- Board, from `src/frontend/src/types/index.ts` lines 24-28. -/
structure Board where
  id : Nat
  title : String
  column_ids : List Nat
deriving DecidableEq, Repr

/-- BoardDetail, from `src/frontend/src/types/index.ts` lines 30-35. -/
structure BoardDetail where
  id : Nat
  title : String
  columns : List Column
  cards : List Card
deriving DecidableEq, Repr

/-! ## The Position Maintainer

Modelled from the spec: the backend routers
(`backend/app/routers/columns.py`, `backend/app/routers/cards.py`) that
implement the Position Maintainer are missing from the source tree, so the
operations below follow §4.1 of the specification.  A scope member is a
persisted row carrying its id and its integer `position` field; a scope is
the collection of rows, in arbitrary storage order (the `position` fields,
not the list order, carry the ordering semantics). -/

/-- A member of a scope: its id and its persisted integer position. -/
structure Item where
  id : Nat
  pos : Nat
deriving DecidableEq, Repr

/-- A scope (a column's cards or a board's columns) as stored: a finite
collection of rows in arbitrary storage order. -/
abbrev Scope := List Item

/-- The stored position values of a scope. -/
def posSet (s : Scope) : List Nat := s.map Item.pos

/-- The member ids of a scope. -/
def idsOf (s : Scope) : List Nat := s.map Item.id

/-- Dense ordering (spec §3, glossary): the positions of the n members are
exactly the set `{0, ..., n-1}` — no duplicates, no gaps. -/
def Dense (s : Scope) : Prop := List.Perm (posSet s) (List.range s.length)

instance (s : Scope) : Decidable (Dense s) := List.decidablePerm _ _

/-- Error signals of the Position Maintainer (spec §7). -/
inductive PMError where
  | notFound
  | invalidReorderSet
deriving DecidableEq, Repr

/-- Modelled from the spec: `append(scope, itemId)` (§4.1) — assign
`position = count(scope)` (the size before insertion); no other positions
change. -/
def append (s : Scope) (itemId : Nat) : Scope :=
  s ++ [⟨itemId, s.length⟩]

/-- Modelled from the spec: `remove(scope, itemId)` (§4.1) — delete the
item, then decrement by 1 the position of every remaining item whose
position was greater than the removed item's; removing a non-existent id
is rejected as "not found". -/
def remove (s : Scope) (itemId : Nat) : Except PMError Scope :=
  match s.find? (fun x => x.id == itemId) with
  | Option.none => .error .notFound
  | some it =>
      .ok ((s.eraseP (fun x => x.id == itemId)).map
        (fun x => if it.pos < x.pos then { x with pos := x.pos - 1 } else x))

/-- Per-item position update of a forward in-scope move: the moved item
(id `itemId`, currently at `c`) takes the clamped target `T`; every other
item with position in `(c, T]` shifts down by 1. -/
def fwdMap (itemId c T : Nat) (x : Item) : Item :=
  if x.id = itemId ∧ x.pos = c then { x with pos := T }
  else if c < x.pos ∧ x.pos ≤ T then { x with pos := x.pos - 1 }
  else x

/-- Per-item position update of a backward in-scope move: the moved item
takes the clamped target `T`; every other item with position in `[T, c)`
shifts up by 1. -/
def bwdMap (itemId c T : Nat) (x : Item) : Item :=
  if x.id = itemId ∧ x.pos = c then { x with pos := T }
  else if T ≤ x.pos ∧ x.pos < c then { x with pos := x.pos + 1 }
  else x

/-- Modelled from the spec: `moveWithinScope(scope, itemId, targetPosition)`
(§4.1) — target clamped to `[0, count-1]`; no-op when the clamped target
equals the current position; otherwise a contiguous shift: forward moves
shift `(current, target]` down by 1, backward moves shift
`[target, current)` up by 1, and the moved item takes the target. -/
def moveWithinScope (s : Scope) (itemId target : Nat) : Except PMError Scope :=
  match s.find? (fun x => x.id == itemId) with
  | Option.none => .error .notFound
  | some it =>
      if min target (s.length - 1) = it.pos then .ok s
      else if it.pos < min target (s.length - 1) then
        .ok (s.map (fwdMap itemId it.pos (min target (s.length - 1))))
      else
        .ok (s.map (bwdMap itemId it.pos (min target (s.length - 1))))

/-- Modelled from the spec: insertion half of `moveAcrossScopes` (§4.1) —
every item of the target scope at position ≥ the target shifts up by 1 and
the inserted item takes the target slot.  Following §7's
`InvalidTargetIndex` policy choice, the requested position is clamped to
`[0, count(scope)]` (deterministic clamping rather than rejection). -/
def insertAt (s : Scope) (newId target : Nat) : Scope :=
  let t := min target s.length
  s.map (fun x => if t ≤ x.pos then { x with pos := x.pos + 1 } else x) ++ [⟨newId, t⟩]

/-- Modelled from the spec: `moveAcrossScopes(source, target, itemId,
targetPosition)` (§4.1) — the source scope is compacted at the removed
slot and the item is inserted into the target scope, both computed as a
single atomic unit. -/
def moveAcrossScopes (src tgt : Scope) (itemId target : Nat) :
    Except PMError (Scope × Scope) :=
  match src.find? (fun x => x.id == itemId) with
  | Option.none => .error .notFound
  | some it =>
      .ok ((src.eraseP (fun x => x.id == itemId)).map
             (fun x => if it.pos < x.pos then { x with pos := x.pos - 1 } else x),
           insertAt tgt itemId target)

/-- Stated from the spec's words for the refinement claim:
`moveAcrossScopes` is "equivalent to `remove(sourceScope, itemId)` followed
by inserting at `targetPosition` in `targetScope`" (§4.1). -/
def removeThenInsert (src tgt : Scope) (itemId target : Nat) :
    Except PMError (Scope × Scope) := do
  let src' ← remove src itemId
  pure (src', insertAt tgt itemId target)

/-- Modelled from the spec: the membership check of `bulkReorder` (§4.1) —
the id list must be exactly the current membership of the scope: one entry
per member, no duplicates, no omissions, no foreign ids. -/
def ExactMembership (s : Scope) (ids : List Nat) : Prop :=
  ids.length = s.length ∧ ids.Nodup ∧
    (∀ x ∈ s, x.id ∈ ids) ∧ (∀ i ∈ ids, i ∈ idsOf s)

instance (s : Scope) (ids : List Nat) : Decidable (ExactMembership s ids) := by
  unfold ExactMembership
  infer_instance

/-- Modelled from the spec: `bulkReorder(scope, orderedIdList)` (§4.1) —
assign `position = index` in the list for each id; reject without applying
any change unless the list is exactly the scope's membership. -/
def bulkReorder (s : Scope) (ids : List Nat) : Except PMError Scope :=
  if ExactMembership s ids then
    .ok (s.map (fun x => { x with pos := List.indexOf x.id ids }))
  else .error .invalidReorderSet

/-- The largest stored position (0 for an empty scope). -/
def maxPos (s : Scope) : Nat := (posSet s).foldr max 0

/-- The id stored at a given position (0 when no member holds it; under
`Dense` every position below the count is held by exactly one member). -/
def idAt (s : Scope) (p : Nat) : Nat :=
  ((s.find? (fun x => x.pos == p)).map Item.id).getD 0

/-- The scope's members' ids read off in position order. -/
def orderOf (s : Scope) : List Nat := (List.range s.length).map (idAt s)

/-! ## The position-shift arithmetic -/

/-- Position update for a forward move: `(c, t]` shifts down, `c` takes `t`. -/
def shiftFwd (c t p : Nat) : Nat :=
  if p = c then t else if c < p ∧ p ≤ t then p - 1 else p

/-- Position update for a backward move: `[t, c)` shifts up, `c` takes `t`. -/
def shiftBwd (c t p : Nat) : Nat :=
  if p = c then t else if t ≤ p ∧ p < c then p + 1 else p

/-- Position update when compacting after a removal at slot `c`. -/
def shiftDown (c p : Nat) : Nat := if c < p then p - 1 else p

/-- Position update when inserting at slot `t`. -/
def shiftUp (t p : Nat) : Nat := if t ≤ p then p + 1 else p


/-! ## The operation language over a family of scopes -/

/-- An operation request, addressing scopes by their parent keys
(column id for a card scope, board id for a column scope). -/
inductive Op where
  | appendOp (scope itemId : Nat)
  | removeOp (scope itemId : Nat)
  | moveWithinOp (scope itemId target : Nat)
  | moveAcrossOp (src tgt itemId target : Nat)
  | bulkReorderOp (scope : Nat) (ids : List Nat)
deriving DecidableEq, Repr

/-- The persisted state: each scope keyed by its parent id. -/
structure MultiState where
  scopes : List (Nat × Scope)
deriving DecidableEq, Repr

def getScope (st : MultiState) (k : Nat) : Option Scope :=
  (st.scopes.find? (fun p => p.1 == k)).map Prod.snd

def setScope (st : MultiState) (k : Nat) (s : Scope) : MultiState :=
  ⟨st.scopes.map (fun p => if p.1 = k then (k, s) else p)⟩

/-- Modelled from the spec (§4.1, §5, §7): one operation applied to the
persisted state.  An operation addressing a missing scope, or failing,
commits no partial position writes — the state is returned unchanged; a
cross-scope move applies both scope updates as a single atomic unit, and a
cross-scope request naming the same scope twice is routed to
`moveWithinScope` (spec §6: same column means a within-scope move). -/
def stepOp (st : MultiState) : Op → MultiState
  | .appendOp k i =>
      match getScope st k with
      | Option.none => st
      | some s => setScope st k (append s i)
  | .removeOp k i =>
      match getScope st k with
      | Option.none => st
      | some s =>
          match remove s i with
          | .error _ => st
          | .ok s' => setScope st k s'
  | .moveWithinOp k i t =>
      match getScope st k with
      | Option.none => st
      | some s =>
          match moveWithinScope s i t with
          | .error _ => st
          | .ok s' => setScope st k s'
  | .moveAcrossOp k1 k2 i t =>
      if k1 = k2 then
        match getScope st k1 with
        | Option.none => st
        | some s =>
            match moveWithinScope s i t with
            | .error _ => st
            | .ok s' => setScope st k1 s'
      else
        match getScope st k1 with
        | Option.none => st
        | some src =>
            match getScope st k2 with
            | Option.none => st
            | some tgt =>
                match moveAcrossScopes src tgt i t with
                | .error _ => st
                | .ok (src', tgt') => setScope (setScope st k1 src') k2 tgt'
  | .bulkReorderOp k ids =>
      match getScope st k with
      | Option.none => st
      | some s =>
          match bulkReorder s ids with
          | .error _ => st
          | .ok s' => setScope st k s'

/-- The state after each individual operation of a sequence, in order. -/
def statesAfter : List Op → MultiState → List MultiState
  | [], _ => []
  | op :: ops, st => stepOp st op :: statesAfter ops (stepOp st op)

/-- Every scope of the state satisfies the density invariant. -/
def AllDense (st : MultiState) : Prop := ∀ sc ∈ st.scopes, Dense sc.2

instance (st : MultiState) : Decidable (AllDense st) := by
  unfold AllDense
  infer_instance


/-! ## Concrete witness inputs -/

/-- Concrete two-scope state used to witness C1. -/
def c1St : MultiState := ⟨[(0, [⟨1, 0⟩, ⟨2, 1⟩]), (1, [⟨3, 0⟩])]⟩

/-- Concrete operation sequence exercising all five operations. -/
def c1Ops : List Op :=
  [.appendOp 0 4, .moveWithinOp 0 1 2, .moveAcrossOp 0 1 2 0,
   .removeOp 0 1, .bulkReorderOp 1 [2, 3]]

/-- Concrete state for the C2 witness: the spec §8 scenario — column 0
holds A(0), B(1) (ids 1, 2), column 1 holds C(0) (id 3). -/
def c2St : MultiState := ⟨[(0, [⟨1, 0⟩, ⟨2, 1⟩]), (1, [⟨3, 0⟩])]⟩

/-- Concrete scope for the C3 witness: the spec §8 scenario — a board with
columns X(0), Y(1), Z(2) (ids 24, 25, 26). -/
def c3Scope : Scope := [⟨24, 0⟩, ⟨25, 1⟩, ⟨26, 2⟩]

/-- Concrete scope for the C5 witness: the spec §8 scenario — a column
with cards A(0), B(1), C(2) (ids 1, 2, 3); B is removed. -/
def c5Scope : Scope := [⟨1, 0⟩, ⟨2, 1⟩, ⟨3, 2⟩]

/-- Concrete scope for the C4 witness: four cards in one column; card 1
is moved forward from position 0 to position 2. -/
def c4Scope : Scope := [⟨1, 0⟩, ⟨2, 1⟩, ⟨3, 2⟩, ⟨4, 3⟩]

/-! ## Column deletion at board level (C7)

Modelled from the spec and the in-repo task breakdown (Task 2, the
`DELETE /api/columns/{column_id}` bullet of the docs appended to
`src/frontend/src/types/index.ts`): deleting a column moves its cards to
the first remaining column, or — when it is the last column — deletes the
column together with its cards (Task 1 declares cascade deletion of a
column's cards at the ORM level). -/

/-- A column row as persisted: id and position within its board. -/
structure ColumnRow where
  id : Nat
  position : Nat
deriving DecidableEq, Repr

/-- A card row as persisted, reduced to the fields relevant here. -/
structure CardRow where
  id : Nat
  column_id : Nat
deriving DecidableEq, Repr

/-- A board's columns and cards. -/
structure BoardRows where
  columns : List ColumnRow
  cards : List CardRow
deriving DecidableEq, Repr

/-- The first remaining column: the one with the lowest position. -/
def firstColumn (cols : List ColumnRow) : Option ColumnRow :=
  match cols with
  | [] => Option.none
  | c :: rest =>
      some (rest.foldl (fun b x => if x.position < b.position then x else b) c)

/-- Modelled from the spec/task doc: `DELETE /api/columns/{column_id}` —
delete the column, relocating its cards to the first remaining column;
when it was the board's last column, the cards are cascade-deleted with
it; the remaining columns' positions compact. -/
def deleteColumn (b : BoardRows) (colId : Nat) : Except PMError BoardRows :=
  match b.columns.find? (fun c => c.id == colId) with
  | Option.none => .error .notFound
  | some col =>
      match firstColumn (b.columns.filter (fun c => c.id != colId)) with
      | Option.none =>
          .ok ⟨[], b.cards.filter (fun c => c.column_id != colId)⟩
      | some tgt =>
          .ok ⟨(b.columns.filter (fun c => c.id != colId)).map
                 (fun c => if col.position < c.position then
                   { c with position := c.position - 1 } else c),
               b.cards.map (fun c => if c.column_id = colId then
                 { c with column_id := tgt.id } else c)⟩

/-- Every card's `column_id` names a column the board still owns — in
particular a board owning a card owns a column. -/
def CardsHaveColumn (b : BoardRows) : Prop :=
  ∀ c ∈ b.cards, ∃ col ∈ b.columns, col.id = c.column_id

instance (b : BoardRows) : Decidable (CardsHaveColumn b) := by
  unfold CardsHaveColumn
  infer_instance

/-- C7 counterexample board: one column (id 1) still owning card 10. -/
def c7Board : BoardRows := ⟨[⟨1, 0⟩], [⟨10, 1⟩]⟩

/-- C7 witness board: two columns, card 10 in column 1; column 1 is
deleted and the card relocates to column 2. -/
def c7Board2 : BoardRows := ⟨[⟨1, 0⟩, ⟨2, 1⟩], [⟨10, 1⟩]⟩

/-! ## Labels (C9) -/

/-- Modelled from the spec: the label-relevant slice of a board — its
Label entities and its cards with their embedded label snapshots (spec §3,
Task 4). -/
structure LabelBoard where
  labels : List Label
  cards : List Card
deriving DecidableEq, Repr

/-- Modelled from the spec: assigning a label to a card copies the label's
current name and color into the card's embedded list — a snapshot taken at
assignment time, not a reference (spec §3, §9). -/
def assignLabel (b : LabelBoard) (cardId labelId : Nat) : LabelBoard :=
  match b.labels.find? (fun l => l.id == labelId) with
  | Option.none => b
  | some l =>
      { b with cards := b.cards.map (fun c =>
          if c.id = cardId then { c with labels := c.labels ++ [l] } else c) }

/-- Modelled from the spec/task doc: `DELETE /api/labels/{label_id}` —
delete the Label entity from the board; cards are not touched (Task 4:
"Deleting a label does not affect cards"). -/
def deleteLabel (b : LabelBoard) (labelId : Nat) : LabelBoard :=
  { b with labels := b.labels.filter (fun l => l.id != labelId) }

/-- C9 witness board: one label and one card with no labels yet. -/
def c9Board : LabelBoard :=
  ⟨[⟨5, "bug", "#ff0000"⟩], [⟨7, "fix it", Option.none, Priority.high, [], 1⟩]⟩

/-! ## The frontend store over `BoardDetail` (C10)

Modelled from the spec: `frontend/src/store/boardStore.ts` is missing from
the source tree; the store actions listed in Task 6 (`addCard`,
`updateCard`, `moveCard`, `deleteCard`, `addColumn`, `deleteColumn`,
`reorderColumns`) are modelled as transformations of the `BoardDetail`
state, each validating its inputs and leaving the state unchanged on
failure (the store reloads the board from the server on failure, restoring
a consistent state). -/

/-- A store action. -/
inductive StoreOp where
  | addCardOp (cardId colId : Nat) (title : String)
  | updateCardOp (cardId : Nat) (title : String) (descr : Option String)
      (prio : Priority) (labels : List Label)
  | moveCardOp (cardId targetCol pos : Nat)
  | deleteCardOp (cardId : Nat)
  | addColumnOp (colId : Nat) (name : String)
  | deleteColumnOp (colId : Nat)
  | reorderColumnsOp (ids : List Nat)
deriving DecidableEq, Repr

/-- Modelled from the spec: store action `addCard` (Task 6) — the new card
joins the cards list with the column's id and is appended to that column's
`card_ids`. -/
def storeAddCard (bd : BoardDetail) (cardId colId : Nat) (title : String) :
    BoardDetail :=
  if (∃ c ∈ bd.cards, c.id = cardId) ∨ (∀ c ∈ bd.columns, c.id ≠ colId) then bd
  else
    { bd with
      cards := bd.cards ++ [⟨cardId, title, Option.none, Priority.none, [], colId⟩],
      columns := bd.columns.map (fun col =>
        if col.id = colId then { col with card_ids := col.card_ids ++ [cardId] }
        else col) }

/-- Modelled from the spec: store action `updateCard` (Task 6) — edits the
card's fields, leaving its id and column membership alone. -/
def storeUpdateCard (bd : BoardDetail) (cardId : Nat) (title : String)
    (descr : Option String) (prio : Priority) (labels : List Label) :
    BoardDetail :=
  { bd with cards := bd.cards.map (fun c =>
      if c.id = cardId then ⟨c.id, title, descr, prio, labels, c.column_id⟩
      else c) }

/-- Modelled from the spec: store action `moveCard` (Task 6, optimistic
update) — the card's id leaves every column's `card_ids`, is inserted into
the target column's list at the (clamped) position, and the card's
`column_id` becomes the target column. -/
def storeMoveCard (bd : BoardDetail) (cardId targetCol pos : Nat) :
    BoardDetail :=
  if (∀ c ∈ bd.cards, c.id ≠ cardId) ∨ (∀ c ∈ bd.columns, c.id ≠ targetCol) then
    bd
  else
    { bd with
      cards := bd.cards.map (fun c =>
        if c.id = cardId then { c with column_id := targetCol } else c),
      columns := bd.columns.map (fun col =>
        if col.id = targetCol then
          { col with card_ids := (col.card_ids.filter (fun i => i != cardId)).insertIdx (min pos (col.card_ids.filter (fun i => i != cardId)).length) cardId }
        else { col with card_ids := col.card_ids.filter (fun i => i != cardId) }) }

/-- Modelled from the spec: store action `deleteCard` (Task 6). -/
def storeDeleteCard (bd : BoardDetail) (cardId : Nat) : BoardDetail :=
  { bd with
    cards := bd.cards.filter (fun c => c.id != cardId),
    columns := bd.columns.map (fun col =>
      { col with card_ids := col.card_ids.filter (fun i => i != cardId) }) }

/-- Modelled from the spec: store action `addColumn` (Task 6). -/
def storeAddColumn (bd : BoardDetail) (colId : Nat) (name : String) :
    BoardDetail :=
  if ∃ c ∈ bd.columns, c.id = colId then bd
  else { bd with columns := bd.columns ++ [⟨colId, name, []⟩] }

/-- Modelled from the spec: store action `deleteColumn` (Task 6, with the
backend semantics of Task 2) — the column's cards relocate to the first
remaining column, or disappear with the last column. -/
def storeDeleteColumn (bd : BoardDetail) (colId : Nat) : BoardDetail :=
  match bd.columns.find? (fun c => c.id == colId) with
  | Option.none => bd
  | some col =>
      match bd.columns.filter (fun c => c.id != colId) with
      | [] => { bd with
          columns := [],
          cards := bd.cards.filter (fun c => c.column_id != colId) }
      | tgt :: rest =>
          { bd with
            columns := (tgt :: rest).map (fun c =>
              if c.id = tgt.id then
                { c with card_ids := c.card_ids ++ col.card_ids } else c),
            cards := bd.cards.map (fun c =>
              if c.column_id = colId then { c with column_id := tgt.id }
              else c) }

/-- Modelled from the spec: store action `reorderColumns` (Task 6, backed
by `PUT /api/columns/reorder`) — reorder the columns list to match the id
list when that list is exactly the current membership. -/
def storeReorderColumns (bd : BoardDetail) (ids : List Nat) : BoardDetail :=
  if ids.Nodup ∧ (∀ c ∈ bd.columns, c.id ∈ ids) ∧
      (∀ i ∈ ids, i ∈ bd.columns.map Column.id) then
    { bd with
      columns := ids.filterMap (fun i => bd.columns.find? (fun c => c.id == i)) }
  else bd

/-- One store action applied to the local `BoardDetail` state. -/
def storeStep (bd : BoardDetail) : StoreOp → BoardDetail
  | .addCardOp cardId colId title => storeAddCard bd cardId colId title
  | .updateCardOp cardId title descr prio labels =>
      storeUpdateCard bd cardId title descr prio labels
  | .moveCardOp cardId targetCol pos => storeMoveCard bd cardId targetCol pos
  | .deleteCardOp cardId => storeDeleteCard bd cardId
  | .addColumnOp colId name => storeAddColumn bd colId name
  | .deleteColumnOp colId => storeDeleteColumn bd colId
  | .reorderColumnsOp ids => storeReorderColumns bd ids

/-- A sequence of store actions applied in order. -/
def storeRun : List StoreOp → BoardDetail → BoardDetail
  | [], bd => bd
  | op :: ops, bd => storeRun ops (storeStep bd op)

/-- The dual-representation consistency invariant of `BoardDetail`:
column ids and card ids are unique, each column's `card_ids` has no
duplicates, every card's `column_id` names a column of the board, a card's
id occurs in a column's `card_ids` exactly when that column is the card's
column (hence in no other column's list), and every `card_ids` entry names
a card of the board. -/
def Consistent (bd : BoardDetail) : Prop :=
  (bd.columns.map Column.id).Nodup ∧
  (bd.cards.map Card.id).Nodup ∧
  (∀ col ∈ bd.columns, col.card_ids.Nodup) ∧
  (∀ card ∈ bd.cards, ∃ col ∈ bd.columns, col.id = card.column_id) ∧
  (∀ card ∈ bd.cards, ∀ col ∈ bd.columns,
    (card.id ∈ col.card_ids ↔ col.id = card.column_id)) ∧
  (∀ col ∈ bd.columns, ∀ i ∈ col.card_ids, ∃ card ∈ bd.cards, card.id = i)

instance (bd : BoardDetail) : Decidable (Consistent bd) := by
  unfold Consistent
  infer_instance

/-- C10 witness state: two columns, two cards. -/
def c10Board : BoardDetail :=
  ⟨1, "My Project",
   [⟨1, "Todo", [100, 101]⟩, ⟨2, "Done", []⟩],
   [⟨100, "a", Option.none, Priority.none, [], 1⟩,
    ⟨101, "b", Option.none, Priority.low, [], 1⟩]⟩

/-- C10 witness action sequence exercising every store action. -/
def c10Ops : List StoreOp :=
  [.addCardOp 102 2 "c", .moveCardOp 100 2 0, .updateCardOp 101 "b2"
      (some "desc") Priority.high [⟨5, "bug", "#f00"⟩],
   .addColumnOp 3 "Doing", .reorderColumnsOp [3, 1, 2],
   .deleteCardOp 101, .deleteColumnOp 2]


/-! ## Basic facts about density -/

theorem posSet_length (s : Scope) : (posSet s).length = s.length := by
  simp [posSet]

theorem dense_iff (s : Scope) :
    Dense s ↔ (posSet s).Nodup ∧ ∀ p ∈ posSet s, p < s.length := by
  constructor
  · intro h
    exact ⟨h.nodup_iff.2 (List.nodup_range _),
      fun p hp => List.mem_range.1 (h.mem_iff.1 hp)⟩
  · rintro ⟨hnd, hbd⟩
    have hsub : posSet s ⊆ List.range s.length :=
      fun p hp => List.mem_range.2 (hbd p hp)
    exact (List.subperm_of_subset hnd hsub).perm_of_length_le
      (by simp [posSet_length])

theorem pos_mem_posSet {s : Scope} {x : Item} (hx : x ∈ s) : x.pos ∈ posSet s :=
  List.mem_map_of_mem Item.pos hx

theorem Dense.posSet_nodup {s : Scope} (h : Dense s) : (posSet s).Nodup :=
  ((dense_iff s).1 h).1

theorem Dense.pos_lt {s : Scope} (h : Dense s) {x : Item} (hx : x ∈ s) :
    x.pos < s.length :=
  ((dense_iff s).1 h).2 _ (pos_mem_posSet hx)

theorem Dense.pos_inj {s : Scope} (h : Dense s) {x y : Item}
    (hx : x ∈ s) (hy : y ∈ s) (hpos : x.pos = y.pos) : x = y :=
  List.inj_on_of_nodup_map h.posSet_nodup hx hy hpos

theorem posSet_map (s : Scope) (f : Item → Item) (g : Nat → Nat)
    (h : ∀ x ∈ s, (f x).pos = g x.pos) :
    posSet (s.map f) = (posSet s).map g := by
  simp only [posSet, List.map_map]
  exact List.map_congr_left (fun x hx => by
    simp only [Function.comp_apply]
    exact h x hx)

theorem shiftFwd_injective {c t : Nat} (hct : c < t) :
    Function.Injective (shiftFwd c t) := by
  intro p q hpq
  unfold shiftFwd at hpq
  split_ifs at hpq <;> omega

theorem shiftBwd_injective {c t : Nat} (htc : t < c) :
    Function.Injective (shiftBwd c t) := by
  intro p q hpq
  unfold shiftBwd at hpq
  split_ifs at hpq <;> omega

theorem shiftUp_injective (t : Nat) : Function.Injective (shiftUp t) := by
  intro p q hpq
  unfold shiftUp at hpq
  split_ifs at hpq <;> omega

theorem fwdMap_preserves_id (itemId c T : Nat) (x : Item) :
    (fwdMap itemId c T x).id = x.id := by
  unfold fwdMap
  split_ifs <;> rfl

theorem bwdMap_preserves_id (itemId c T : Nat) (x : Item) :
    (bwdMap itemId c T x).id = x.id := by
  unfold bwdMap
  split_ifs <;> rfl

theorem fwdMap_pos {s : Scope} {itemId : Nat} {it : Item} (h : Dense s)
    (hitmem : it ∈ s) (hitid : it.id = itemId) (T : Nat) :
    ∀ x ∈ s, (fwdMap itemId it.pos T x).pos = shiftFwd it.pos T x.pos := by
  intro x hx
  unfold fwdMap shiftFwd
  by_cases hxc : x.pos = it.pos
  · have hxit : x = it := h.pos_inj hx hitmem hxc
    rw [if_pos ⟨by rw [hxit, hitid], hxc⟩, if_pos hxc]
  · rw [if_neg (fun hcond => hxc hcond.2), if_neg hxc]
    by_cases hr : it.pos < x.pos ∧ x.pos ≤ T
    · rw [if_pos hr, if_pos hr]
    · rw [if_neg hr, if_neg hr]

theorem bwdMap_pos {s : Scope} {itemId : Nat} {it : Item} (h : Dense s)
    (hitmem : it ∈ s) (hitid : it.id = itemId) (T : Nat) :
    ∀ x ∈ s, (bwdMap itemId it.pos T x).pos = shiftBwd it.pos T x.pos := by
  intro x hx
  unfold bwdMap shiftBwd
  by_cases hxc : x.pos = it.pos
  · have hxit : x = it := h.pos_inj hx hitmem hxc
    rw [if_pos ⟨by rw [hxit, hitid], hxc⟩, if_pos hxc]
  · rw [if_neg (fun hcond => hxc hcond.2), if_neg hxc]
    by_cases hr : T ≤ x.pos ∧ x.pos < it.pos
    · rw [if_pos hr, if_pos hr]
    · rw [if_neg hr, if_neg hr]

/-! ## Density is preserved by every operation -/

theorem find?_decomp {s : Scope} {itemId : Nat} {it : Item}
    (hfind : s.find? (fun x => x.id == itemId) = some it) :
    ∃ l₁ l₂, s = l₁ ++ it :: l₂ ∧
      s.eraseP (fun x => x.id == itemId) = l₁ ++ l₂ ∧ it.id = itemId := by
  have hmem := List.mem_of_find?_eq_some hfind
  have hp := List.find?_some hfind
  obtain ⟨a, l₁, l₂, hl₁, hpa, hs, he⟩ :=
    @List.exists_of_eraseP Item (fun x => x.id == itemId) s it hmem hp
  have hait : a = it := by
    rw [hs, List.find?_append, List.find?_eq_none.2 hl₁, Option.none_or] at hfind
    have hcons : List.find? (fun x => x.id == itemId) (a :: l₂) = some a :=
      List.find?_cons_of_pos _ hpa
    rw [hcons] at hfind
    exact Option.some.inj hfind
  subst hait
  exact ⟨l₁, l₂, hs, he, by simpa using hp⟩

theorem dense_append {s : Scope} (h : Dense s) (i : Nat) : Dense (append s i) := by
  rcases (dense_iff s).1 h with ⟨hnd, hbd⟩
  rw [dense_iff]
  have hlen : (append s i).length = s.length + 1 := by simp [append]
  have hps : posSet (append s i) = posSet s ++ [s.length] := by simp [append, posSet]
  constructor
  · rw [hps]
    refine List.Nodup.append hnd (List.nodup_singleton _) ?_
    intro a ha hb
    rw [List.mem_singleton] at hb
    subst hb
    exact absurd (hbd _ ha) (lt_irrefl _)
  · intro p hp
    rw [hps] at hp
    rw [hlen]
    rcases List.mem_append.1 hp with hp | hp
    · exact Nat.lt_succ_of_lt (hbd _ hp)
    · rw [List.mem_singleton] at hp
      omega

theorem dense_removeAux {s : Scope} {itemId : Nat} {it : Item} (h : Dense s)
    (hfind : s.find? (fun x => x.id == itemId) = some it) :
    Dense ((s.eraseP (fun x => x.id == itemId)).map
      (fun x => if it.pos < x.pos then { x with pos := x.pos - 1 } else x)) := by
  obtain ⟨l₁, l₂, hs, he, -⟩ := find?_decomp hfind
  rcases (dense_iff s).1 h with ⟨hnd, hbd⟩
  have hc : it.pos < s.length := h.pos_lt (List.mem_of_find?_eq_some hfind)
  have hpsS : posSet s = posSet l₁ ++ it.pos :: posSet l₂ := by
    rw [hs]; simp [posSet]
  rw [hpsS] at hnd
  have hndE : (it.pos :: (posSet l₁ ++ posSet l₂)).Nodup := List.nodup_middle.1 hnd
  have hnotc : it.pos ∉ posSet l₁ ++ posSet l₂ := (List.nodup_cons.1 hndE).1
  have hndLL : (posSet l₁ ++ posSet l₂).Nodup := (List.nodup_cons.1 hndE).2
  have hsubLL : ∀ p ∈ posSet l₁ ++ posSet l₂, p ∈ posSet s := by
    intro p hp
    rw [hpsS]
    rcases List.mem_append.1 hp with hp | hp
    · exact List.mem_append.2 (Or.inl hp)
    · exact List.mem_append.2 (Or.inr (List.mem_cons_of_mem _ hp))
  rw [dense_iff]
  rw [he]
  have hps : posSet ((l₁ ++ l₂).map
      (fun x => if it.pos < x.pos then { x with pos := x.pos - 1 } else x)) =
      (posSet (l₁ ++ l₂)).map (shiftDown it.pos) := by
    refine posSet_map _ _ _ (fun x _ => ?_)
    unfold shiftDown
    split_ifs <;> rfl
  have hpsLL : posSet (l₁ ++ l₂) = posSet l₁ ++ posSet l₂ := by simp [posSet]
  have hlen : ((l₁ ++ l₂).map
      (fun x => if it.pos < x.pos then { x with pos := x.pos - 1 } else x)).length
      = s.length - 1 := by
    rw [hs]; simp
  rw [hps, hpsLL, hlen]
  constructor
  · refine List.Nodup.map_on ?_ hndLL
    intro p hp q hq hpq
    have hp' : p ≠ it.pos := fun hc' => hnotc (hc' ▸ hp)
    have hq' : q ≠ it.pos := fun hc' => hnotc (hc' ▸ hq)
    unfold shiftDown at hpq
    split_ifs at hpq <;> omega
  · intro q hq
    rcases List.mem_map.1 hq with ⟨p, hp, hpq⟩
    have hp' : p ≠ it.pos := fun hc' => hnotc (hc' ▸ hp)
    have hpn : p < s.length := hbd _ (hsubLL _ hp)
    subst hpq
    unfold shiftDown
    split_ifs <;> omega

theorem dense_remove {s : Scope} {itemId : Nat} {s' : Scope} (h : Dense s)
    (hok : remove s itemId = .ok s') : Dense s' := by
  unfold remove at hok
  cases hfind : s.find? (fun x => x.id == itemId) with
  | none => rw [hfind] at hok; cases hok
  | some it =>
      rw [hfind] at hok
      cases hok
      exact dense_removeAux h hfind

theorem dense_moveWithin {s : Scope} {itemId target : Nat} {s' : Scope}
    (h : Dense s) (hok : moveWithinScope s itemId target = .ok s') : Dense s' := by
  unfold moveWithinScope at hok
  cases hfind : s.find? (fun x => x.id == itemId) with
  | none => rw [hfind] at hok; cases hok
  | some it =>
      rw [hfind] at hok
      dsimp only at hok
      have hitmem := List.mem_of_find?_eq_some hfind
      have hitid : it.id = itemId := by simpa using List.find?_some hfind
      have hcn : it.pos < s.length := h.pos_lt hitmem
      set T := min target (s.length - 1) with hT
      have hTn : T < s.length := by omega
      by_cases h1 : T = it.pos
      · rw [if_pos h1] at hok; cases hok; exact h
      rw [if_neg h1] at hok
      by_cases h2 : it.pos < T
      · rw [if_pos h2] at hok
        cases hok
        have hps : posSet (s.map (fwdMap itemId it.pos T)) =
            (posSet s).map (shiftFwd it.pos T) :=
          posSet_map _ _ _ (fwdMap_pos h hitmem hitid T)
        rw [dense_iff, hps]
        refine ⟨h.posSet_nodup.map (shiftFwd_injective h2), ?_⟩
        intro q hq
        rcases List.mem_map.1 hq with ⟨p, hp, hpq⟩
        have hpn : p < s.length := ((dense_iff s).1 h).2 _ hp
        subst hpq
        rw [List.length_map]
        unfold shiftFwd
        split_ifs <;> omega
      · rw [if_neg h2] at hok
        cases hok
        have h2' : T < it.pos := by omega
        have hps : posSet (s.map (bwdMap itemId it.pos T)) =
            (posSet s).map (shiftBwd it.pos T) :=
          posSet_map _ _ _ (bwdMap_pos h hitmem hitid T)
        rw [dense_iff, hps]
        refine ⟨h.posSet_nodup.map (shiftBwd_injective h2'), ?_⟩
        intro q hq
        rcases List.mem_map.1 hq with ⟨p, hp, hpq⟩
        have hpn : p < s.length := ((dense_iff s).1 h).2 _ hp
        subst hpq
        rw [List.length_map]
        unfold shiftBwd
        split_ifs <;> omega

theorem dense_insertAt {s : Scope} (h : Dense s) (newId target : Nat) :
    Dense (insertAt s newId target) := by
  rcases (dense_iff s).1 h with ⟨hnd, hbd⟩
  set t := min target s.length with ht
  have htn : t ≤ s.length := by omega
  have hps : posSet (insertAt s newId target) =
      (posSet s).map (shiftUp t) ++ [t] := by
    unfold insertAt
    rw [← ht]
    simp only [posSet, List.map_append, List.map_map]
    congr 1
    · refine List.map_congr_left (fun x hx => ?_)
      simp only [Function.comp_apply]
      unfold shiftUp
      split_ifs <;> rfl
  have hlen : (insertAt s newId target).length = s.length + 1 := by
    unfold insertAt
    simp
  rw [dense_iff, hps, hlen]
  constructor
  · refine List.Nodup.append (hnd.map (shiftUp_injective t)) (List.nodup_singleton _) ?_
    intro a ha hb
    rw [List.mem_singleton] at hb
    subst hb
    rcases List.mem_map.1 ha with ⟨p, _, hpq⟩
    unfold shiftUp at hpq
    split_ifs at hpq <;> omega
  · intro q hq
    rcases List.mem_append.1 hq with hq | hq
    · rcases List.mem_map.1 hq with ⟨p, hp, hpq⟩
      have := hbd _ hp
      subst hpq
      unfold shiftUp
      split_ifs <;> omega
    · rw [List.mem_singleton] at hq
      omega

theorem dense_moveAcross {src tgt : Scope} {itemId target : Nat}
    {src' tgt' : Scope} (hsrc : Dense src) (htgt : Dense tgt)
    (hok : moveAcrossScopes src tgt itemId target = .ok (src', tgt')) :
    Dense src' ∧ Dense tgt' := by
  unfold moveAcrossScopes at hok
  cases hfind : src.find? (fun x => x.id == itemId) with
  | none => rw [hfind] at hok; cases hok
  | some it =>
      rw [hfind] at hok
      cases hok
      exact ⟨dense_removeAux hsrc hfind, dense_insertAt htgt itemId target⟩

theorem exact_membership_perm {s : Scope} {ids : List Nat}
    (h : ExactMembership s ids) : List.Perm ids (idsOf s) ∧ (idsOf s).Nodup := by
  obtain ⟨hlen, hnd, -, hsub⟩ := h
  have hsp := List.subperm_of_subset hnd (fun i hi => hsub i hi)
  have hperm := hsp.perm_of_length_le
    (le_of_eq (by simp [idsOf, hlen]))
  exact ⟨hperm, hperm.nodup_iff.1 hnd⟩

theorem dense_bulkReorder {s : Scope} {ids : List Nat} {s' : Scope}
    (hok : bulkReorder s ids = .ok s') : Dense s' := by
  unfold bulkReorder at hok
  by_cases hex : ExactMembership s ids
  case neg => rw [if_neg hex] at hok; cases hok
  rw [if_pos hex] at hok
  cases hok
  obtain ⟨-, hndids⟩ := exact_membership_perm hex
  obtain ⟨hlen, -, hmem, -⟩ := hex
  have hnds : s.Nodup := hndids.of_map Item.id
  rw [dense_iff]
  have hps : posSet (s.map (fun x => { x with pos := List.indexOf x.id ids })) =
      s.map (fun x => List.indexOf x.id ids) := by
    simp [posSet, List.map_map, Function.comp]
  have hlen' : (s.map (fun x => { x with pos := List.indexOf x.id ids })).length
      = s.length := by simp
  rw [hps, hlen']
  constructor
  · refine List.Nodup.map_on ?_ hnds
    intro x hx y hy hxy
    have hxid : x.id = y.id :=
      (List.indexOf_inj (hmem x hx) (hmem y hy)).1 hxy
    exact List.inj_on_of_nodup_map hndids hx hy hxid
  · intro q hq
    rcases List.mem_map.1 hq with ⟨x, hx, hxq⟩
    subst hxq
    rw [← hlen]
    exact List.indexOf_lt_length.2 (hmem x hx)

theorem mem_setScope {st : MultiState} {k : Nat} {s : Scope} {sc : Nat × Scope}
    (hmem : sc ∈ (setScope st k s).scopes) : sc = (k, s) ∨ sc ∈ st.scopes := by
  rcases List.mem_map.1 hmem with ⟨p, hp, hps⟩
  by_cases hpk : p.1 = k
  · left
    rw [← hps, if_pos hpk]
  · right
    rw [← hps, if_neg hpk]
    exact hp

theorem getScope_mem {st : MultiState} {k : Nat} {s : Scope}
    (h : getScope st k = some s) : ∃ p ∈ st.scopes, p.2 = s := by
  unfold getScope at h
  cases hf : st.scopes.find? (fun p => p.1 == k) with
  | none => rw [hf] at h; cases h
  | some p =>
      rw [hf] at h
      exact ⟨p, List.mem_of_find?_eq_some hf, by simpa using h⟩

theorem AllDense.getScope {st : MultiState} (hst : AllDense st) {k : Nat}
    {s : Scope} (h : getScope st k = some s) : Dense s := by
  obtain ⟨p, hp, hps⟩ := getScope_mem h
  exact hps ▸ hst p hp

theorem AllDense.setScope {st : MultiState} (hst : AllDense st) {k : Nat}
    {s : Scope} (hs : Dense s) : AllDense (Baudboard.setScope st k s) := by
  intro sc hmem
  rcases mem_setScope hmem with h | h
  · rw [h]
    exact hs
  · exact hst sc h

theorem stepOp_dense {st : MultiState} (hst : AllDense st) (op : Op) :
    AllDense (stepOp st op) := by
  cases op with
  | appendOp k i =>
      cases hg : getScope st k with
      | none => simpa only [stepOp, hg] using hst
      | some s =>
          simp only [stepOp, hg]
          exact hst.setScope (dense_append (hst.getScope hg) i)
  | removeOp k i =>
      cases hg : getScope st k with
      | none => simpa only [stepOp, hg] using hst
      | some s =>
          cases hr : remove s i with
          | error e => simpa only [stepOp, hg, hr] using hst
          | ok s' =>
              simp only [stepOp, hg, hr]
              exact hst.setScope (dense_remove (hst.getScope hg) hr)
  | moveWithinOp k i t =>
      cases hg : getScope st k with
      | none => simpa only [stepOp, hg] using hst
      | some s =>
          cases hr : moveWithinScope s i t with
          | error e => simpa only [stepOp, hg, hr] using hst
          | ok s' =>
              simp only [stepOp, hg, hr]
              exact hst.setScope (dense_moveWithin (hst.getScope hg) hr)
  | moveAcrossOp k1 k2 i t =>
      by_cases hk : k1 = k2
      · cases hg : getScope st k1 with
        | none => simpa only [stepOp, if_pos hk, hg] using hst
        | some s =>
            cases hr : moveWithinScope s i t with
            | error e => simpa only [stepOp, if_pos hk, hg, hr] using hst
            | ok s' =>
                simp only [stepOp, if_pos hk, hg, hr]
                exact hst.setScope (dense_moveWithin (hst.getScope hg) hr)
      · cases hg1 : getScope st k1 with
        | none => simpa only [stepOp, if_neg hk, hg1] using hst
        | some src =>
            cases hg2 : getScope st k2 with
            | none => simpa only [stepOp, if_neg hk, hg1, hg2] using hst
            | some tgt =>
                cases hr : moveAcrossScopes src tgt i t with
                | error e => simpa only [stepOp, if_neg hk, hg1, hg2, hr] using hst
                | ok pr =>
                    obtain ⟨src', tgt'⟩ := pr
                    obtain ⟨hd1, hd2⟩ :=
                      dense_moveAcross (hst.getScope hg1) (hst.getScope hg2) hr
                    simp only [stepOp, if_neg hk, hg1, hg2, hr]
                    exact (hst.setScope hd1).setScope hd2
  | bulkReorderOp k ids =>
      cases hg : getScope st k with
      | none => simpa only [stepOp, hg] using hst
      | some s =>
          cases hr : bulkReorder s ids with
          | error e => simpa only [stepOp, hg, hr] using hst
          | ok s' =>
              simp only [stepOp, hg, hr]
              exact hst.setScope (dense_bulkReorder hr)

theorem find?_setScope (st : MultiState) (k k' : Nat) (s : Scope) :
    (setScope st k s).scopes.find? (fun p => p.1 == k') =
      (st.scopes.find? (fun p => p.1 == k')).map
        (fun p => if p.1 = k then (k, s) else p) := by
  unfold setScope
  rw [List.find?_map]
  have hfun : ((fun p => p.1 == k') ∘ fun p : Nat × Scope =>
      if p.1 = k then (k, s) else p) = (fun p : Nat × Scope => p.1 == k') := by
    funext p
    by_cases hp : p.1 = k
    · simp [hp]
    · simp [hp]
  rw [hfun]

theorem getScope_setScope_other {st : MultiState} {k k' : Nat} (hkk : k' ≠ k)
    (s : Scope) : getScope (setScope st k s) k' = getScope st k' := by
  unfold getScope
  rw [find?_setScope]
  cases hf : st.scopes.find? (fun p => p.1 == k') with
  | none => rfl
  | some p =>
      have hp : p.1 = k' := by simpa using List.find?_some hf
      simp [hp, hkk]

theorem getScope_setScope_self {st : MultiState} {k : Nat} {s0 : Scope}
    (h : getScope st k = some s0) (s : Scope) :
    getScope (setScope st k s) k = some s := by
  unfold getScope at h ⊢
  rw [find?_setScope]
  cases hf : st.scopes.find? (fun p => p.1 == k) with
  | none => rw [hf] at h; cases h
  | some p =>
      have hp : p.1 = k := by simpa using List.find?_some hf
      simp [hp]

/-! ## Claim C1 -/

/-- C1: for every family of scopes satisfying the density invariant and
every finite sequence of append, remove, moveWithinScope, moveAcrossScopes
and bulkReorder operations applied to it, after each individual operation
the set of position values of every scope's members is exactly
`{0, ..., n-1}` for its n members — no duplicates and no gaps. -/
theorem positions_dense_after_each_operation (ops : List Op) (st : MultiState)
    (h : AllDense st) : ∀ st' ∈ statesAfter ops st, AllDense st' := by
  induction ops generalizing st with
  | nil =>
      intro st' hst'
      simp [statesAfter] at hst'
  | cons op ops ih =>
      intro st' hst'
      rcases List.mem_cons.1 hst' with h' | h'
      · rw [h']
        exact stepOp_dense h op
      · exact ih (stepOp st op) (stepOp_dense h op) st' h'

theorem positions_dense_after_each_operation_witness :
    AllDense c1St ∧ ∀ st' ∈ statesAfter c1Ops c1St, AllDense st' :=
  ⟨by decide, positions_dense_after_each_operation c1Ops c1St (by decide)⟩

/-! ## Claim C2 -/

/-- C2: for distinct scopes, `moveAcrossScopes(src, tgt, itemId, target)`
yields exactly the state reached by `remove(src, itemId)` followed by
inserting the item at the target position in `tgt` (the target scope's
members at position ≥ target shift up by 1, the source scope compacts),
and the two scope updates apply as one atomic unit: a failing move leaves
the whole state untouched, and a successful one makes both updated scopes
— and no partially-updated state — observable in the next state. -/
theorem moveAcross_refinement_atomic (src tgt : Scope) (itemId target : Nat)
    (st : MultiState) (k1 k2 : Nat) (hk : k1 ≠ k2)
    (h1 : getScope st k1 = some src) (h2 : getScope st k2 = some tgt) :
    moveAcrossScopes src tgt itemId target =
        removeThenInsert src tgt itemId target ∧
    ((∃ e, moveAcrossScopes src tgt itemId target = .error e) →
      stepOp st (.moveAcrossOp k1 k2 itemId target) = st) ∧
    ∀ src' tgt', moveAcrossScopes src tgt itemId target = .ok (src', tgt') →
      getScope (stepOp st (.moveAcrossOp k1 k2 itemId target)) k1 = some src' ∧
      getScope (stepOp st (.moveAcrossOp k1 k2 itemId target)) k2 = some tgt' ∧
      ∀ k, k ≠ k1 → k ≠ k2 →
        getScope (stepOp st (.moveAcrossOp k1 k2 itemId target)) k =
          getScope st k := by
  refine ⟨?_, ?_, ?_⟩
  · cases hf : src.find? (fun x => x.id == itemId) with
    | none => simp [moveAcrossScopes, removeThenInsert, remove, hf]
    | some it => simp [moveAcrossScopes, removeThenInsert, remove, hf]
  · rintro ⟨e, he⟩
    simp only [stepOp, if_neg hk, h1, h2, he]
  · intro src' tgt' hok
    simp only [stepOp, if_neg hk, h1, h2, hok]
    have hg1 : getScope (setScope st k1 src') k1 = some src' :=
      getScope_setScope_self h1 src'
    have hg2 : getScope (setScope st k1 src') k2 = some tgt := by
      rw [getScope_setScope_other (Ne.symm hk)]
      exact h2
    refine ⟨?_, getScope_setScope_self hg2 tgt', ?_⟩
    · rw [getScope_setScope_other hk]
      exact hg1
    · intro k hk1 hk2
      rw [getScope_setScope_other hk2, getScope_setScope_other hk1]

theorem moveAcross_refinement_atomic_witness :
    (0 : Nat) ≠ 1 ∧
    getScope c2St 0 = some [⟨1, 0⟩, ⟨2, 1⟩] ∧
    getScope c2St 1 = some [⟨3, 0⟩] ∧
    (moveAcrossScopes [⟨1, 0⟩, ⟨2, 1⟩] [⟨3, 0⟩] 2 0 =
        removeThenInsert [⟨1, 0⟩, ⟨2, 1⟩] [⟨3, 0⟩] 2 0 ∧
      ((∃ e, moveAcrossScopes [⟨1, 0⟩, ⟨2, 1⟩] [⟨3, 0⟩] 2 0 = .error e) →
        stepOp c2St (.moveAcrossOp 0 1 2 0) = c2St) ∧
      ∀ src' tgt', moveAcrossScopes [⟨1, 0⟩, ⟨2, 1⟩] [⟨3, 0⟩] 2 0 = .ok (src', tgt') →
        getScope (stepOp c2St (.moveAcrossOp 0 1 2 0)) 0 = some src' ∧
        getScope (stepOp c2St (.moveAcrossOp 0 1 2 0)) 1 = some tgt' ∧
        ∀ k, k ≠ 0 → k ≠ 1 →
          getScope (stepOp c2St (.moveAcrossOp 0 1 2 0)) k = getScope c2St k) :=
  ⟨by decide, rfl, rfl,
    moveAcross_refinement_atomic [⟨1, 0⟩, ⟨2, 1⟩] [⟨3, 0⟩] 2 0 c2St 0 1
      (by decide) rfl rfl⟩

/-! ## Claim C3 -/

/-- C3: `bulkReorder(scope, orderedIdList)` assigns `position = index` to
each id when the list is exactly the scope's current membership; a list
omitting an existing id or containing a foreign id is rejected with
`invalidReorderSet` and no stored position of any item changes. -/
theorem bulkReorder_assigns_index_or_rejects (s : Scope) (ids : List Nat) :
    (ExactMembership s ids →
      ∃ s', bulkReorder s ids = .ok s' ∧
        (∀ k, k < ids.length →
          ∃ x ∈ s, x.id = ids.getD k 0 ∧ (⟨x.id, k⟩ : Item) ∈ s') ∧
        (∀ x ∈ s, (⟨x.id, List.indexOf x.id ids⟩ : Item) ∈ s')) ∧
    (¬ ExactMembership s ids →
      bulkReorder s ids = .error .invalidReorderSet ∧
      ∀ st k, getScope st k = some s → stepOp st (.bulkReorderOp k ids) = st) := by
  constructor
  · intro hex
    refine ⟨s.map (fun x => { x with pos := List.indexOf x.id ids }), ?_, ?_, ?_⟩
    · unfold bulkReorder
      rw [if_pos hex]
    · intro k hk
      obtain ⟨-, hnd, -, hsub⟩ := hex
      have hmemk : ids.getD k 0 ∈ ids := by
        rw [List.getD_eq_getElem?_getD, List.getElem?_eq_getElem hk]
        exact List.getElem_mem hk
      obtain ⟨x, hx, hxid⟩ := List.mem_map.1 (hsub _ hmemk)
      refine ⟨x, hx, hxid, ?_⟩
      have : List.indexOf x.id ids = k := by
        rw [hxid]
        have : ids.getD k 0 = ids[k] := by
          rw [List.getD_eq_getElem?_getD, List.getElem?_eq_getElem hk]
          rfl
        rw [this]
        exact List.indexOf_getElem hnd k hk
      rw [← this]
      exact List.mem_map_of_mem _ hx
    · intro x hx
      exact List.mem_map_of_mem _ hx
  · intro hex
    have herr : bulkReorder s ids = .error .invalidReorderSet := by
      unfold bulkReorder
      rw [if_neg hex]
    refine ⟨herr, fun st k hget => ?_⟩
    simp only [stepOp, hget, herr]

theorem bulkReorder_assigns_index_or_rejects_witness :
    ((ExactMembership c3Scope [26, 24, 25] →
      ∃ s', bulkReorder c3Scope [26, 24, 25] = .ok s' ∧
        (∀ k, k < (3 : Nat) →
          ∃ x ∈ c3Scope, x.id = [26, 24, 25].getD k 0 ∧ (⟨x.id, k⟩ : Item) ∈ s') ∧
        (∀ x ∈ c3Scope,
          (⟨x.id, List.indexOf x.id [26, 24, 25]⟩ : Item) ∈ s')) ∧
      (¬ ExactMembership c3Scope [26, 24, 25] →
        bulkReorder c3Scope [26, 24, 25] = .error .invalidReorderSet ∧
        ∀ st k, getScope st k = some c3Scope →
          stepOp st (.bulkReorderOp k [26, 24, 25]) = st)) ∧
    ((ExactMembership c3Scope [26, 24] →
      ∃ s', bulkReorder c3Scope [26, 24] = .ok s' ∧
        (∀ k, k < (2 : Nat) →
          ∃ x ∈ c3Scope, x.id = [26, 24].getD k 0 ∧ (⟨x.id, k⟩ : Item) ∈ s') ∧
        (∀ x ∈ c3Scope, (⟨x.id, List.indexOf x.id [26, 24]⟩ : Item) ∈ s')) ∧
      (¬ ExactMembership c3Scope [26, 24] →
        bulkReorder c3Scope [26, 24] = .error .invalidReorderSet ∧
        ∀ st k, getScope st k = some c3Scope →
          stepOp st (.bulkReorderOp k [26, 24]) = st)) :=
  ⟨bulkReorder_assigns_index_or_rejects c3Scope [26, 24, 25],
   bulkReorder_assigns_index_or_rejects c3Scope [26, 24]⟩

/-! ## Claim C6 -/

theorem le_foldr_max (l : List Nat) : ∀ a ∈ l, a ≤ l.foldr max 0 := by
  induction l with
  | nil => intro a ha; cases ha
  | cons b l ih =>
      intro a ha
      rcases List.mem_cons.1 ha with rfl | ha
      · exact le_max_left _ _
      · exact le_trans (ih a ha) (le_max_right _ _)

theorem foldr_max_le {l : List Nat} {m : Nat} (h : ∀ a ∈ l, a ≤ m) :
    l.foldr max 0 ≤ m := by
  induction l with
  | nil => exact Nat.zero_le m
  | cons b l ih =>
      exact max_le (h b (List.mem_cons_self b l))
        (ih (fun a ha => h a (List.mem_cons_of_mem b ha)))

theorem Dense.maxPos_eq {s : Scope} (h : Dense s) (hne : s ≠ []) :
    maxPos s + 1 = s.length := by
  rcases (dense_iff s).1 h with ⟨-, hbd⟩
  have hn : 0 < s.length := List.length_pos.2 hne
  have hmem : s.length - 1 ∈ posSet s := by
    have : s.length - 1 ∈ List.range s.length := List.mem_range.2 (by omega)
    exact ((dense_iff s).1 h).elim (fun _ _ => h.mem_iff.2 this)
  have h1 : s.length - 1 ≤ maxPos s := le_foldr_max _ _ hmem
  have h2 : maxPos s ≤ s.length - 1 :=
    foldr_max_le (fun a ha => by have := hbd a ha; omega)
  unfold maxPos at h1 h2
  unfold maxPos
  omega

/-- C6: `append(scope, itemId)` gives the new item position equal to the
scope's size before insertion (equivalently `maxPos + 1`, or 0 on an empty
scope), leaves every pre-existing item unchanged, and the result is dense. -/
theorem append_assigns_count (s : Scope) (i : Nat) (h : Dense s) :
    (append s i).length = s.length + 1 ∧
    (⟨i, s.length⟩ : Item) ∈ append s i ∧
    (∀ x ∈ s, x ∈ append s i) ∧
    (s = [] → (⟨i, 0⟩ : Item) ∈ append s i) ∧
    (s ≠ [] → s.length = maxPos s + 1) ∧
    Dense (append s i) := by
  refine ⟨by simp [append], ?_, ?_, ?_, ?_, dense_append h i⟩
  · unfold append
    exact List.mem_append.2 (Or.inr (List.mem_singleton.2 rfl))
  · intro x hx
    exact List.mem_append.2 (Or.inl hx)
  · intro hnil
    subst hnil
    unfold append
    simp
  · intro hne
    exact (h.maxPos_eq hne).symm

theorem append_assigns_count_witness :
    Dense [⟨1, 0⟩, ⟨3, 1⟩] ∧
    ((append [⟨1, 0⟩, ⟨3, 1⟩] 4).length = 3 ∧
      (⟨4, 2⟩ : Item) ∈ append [⟨1, 0⟩, ⟨3, 1⟩] 4 ∧
      (∀ x ∈ ([⟨1, 0⟩, ⟨3, 1⟩] : Scope), x ∈ append [⟨1, 0⟩, ⟨3, 1⟩] 4) ∧
      (([⟨1, 0⟩, ⟨3, 1⟩] : Scope) = [] →
        (⟨4, 0⟩ : Item) ∈ append [⟨1, 0⟩, ⟨3, 1⟩] 4) ∧
      (([⟨1, 0⟩, ⟨3, 1⟩] : Scope) ≠ [] →
        ([⟨1, 0⟩, ⟨3, 1⟩] : Scope).length = maxPos [⟨1, 0⟩, ⟨3, 1⟩] + 1) ∧
      Dense (append [⟨1, 0⟩, ⟨3, 1⟩] 4)) :=
  ⟨by decide, append_assigns_count [⟨1, 0⟩, ⟨3, 1⟩] 4 (by decide)⟩

/-! ## Claim C5 -/

/-- C5: `remove(scope, itemId)` deletes the item at position p, decrements
by exactly 1 every remaining position greater than p, leaves lower
positions unchanged, and the result is dense; removing a non-existent id
reports "not found" and alters nothing. -/
theorem remove_deletes_and_compacts (s : Scope) (itemId : Nat) (h : Dense s)
    (hids : (idsOf s).Nodup) :
    (∀ it, s.find? (fun x => x.id == itemId) = some it →
      ∃ s', remove s itemId = .ok s' ∧
        s'.length + 1 = s.length ∧
        itemId ∉ idsOf s' ∧
        (∀ x ∈ s, x.id ≠ itemId →
          (x.pos < it.pos → x ∈ s') ∧
          (it.pos < x.pos → (⟨x.id, x.pos - 1⟩ : Item) ∈ s')) ∧
        Dense s') ∧
    (s.find? (fun x => x.id == itemId) = none →
      remove s itemId = .error .notFound ∧
      ∀ st k, getScope st k = some s → stepOp st (.removeOp k itemId) = st) := by
  constructor
  · intro it hfind
    obtain ⟨l₁, l₂, hs, he, hitid⟩ := find?_decomp hfind
    have hitmem := List.mem_of_find?_eq_some hfind
    have hnds : s.Nodup := hids.of_map Item.id
    have hitnotin : it ∉ l₁ ++ l₂ := by
      rw [hs] at hnds
      exact (List.nodup_cons.1 (List.nodup_middle.1 hnds)).1
    refine ⟨(s.eraseP (fun x => x.id == itemId)).map
        (fun x => if it.pos < x.pos then { x with pos := x.pos - 1 } else x),
      by unfold remove; rw [hfind], ?_, ?_, ?_, dense_removeAux h hfind⟩
    · rw [List.length_map, he, hs]
      simp [List.length_append]
      omega
    · intro hcontra
      unfold idsOf at hcontra
      rcases List.mem_map.1 hcontra with ⟨y, hy, hyid⟩
      rcases List.mem_map.1 hy with ⟨x, hx, hxy⟩
      rw [he] at hx
      have hxid : x.id = itemId := by
        rw [← hyid, ← hxy]
        split_ifs <;> rfl
      have hxs : x ∈ s := by
        rw [hs]
        rcases List.mem_append.1 hx with hx' | hx'
        · exact List.mem_append.2 (Or.inl hx')
        · exact List.mem_append.2 (Or.inr (List.mem_cons_of_mem _ hx'))
      have hxit : x = it :=
        List.inj_on_of_nodup_map hids hxs hitmem (by rw [hxid, hitid])
      exact hitnotin (hxit ▸ hx)
    · intro x hx hxid
      have hxLL : x ∈ l₁ ++ l₂ := by
        rw [hs] at hx
        rcases List.mem_append.1 hx with hx' | hx'
        · exact List.mem_append.2 (Or.inl hx')
        · rcases List.mem_cons.1 hx' with hx'' | hx''
          · exact absurd (hx'' ▸ hitid) hxid
          · exact List.mem_append.2 (Or.inr hx'')
      constructor
      · intro hlt
        have hfx : (if it.pos < x.pos then
            ({ x with pos := x.pos - 1 } : Item) else x) = x :=
          if_neg (by omega)
        rw [he]
        exact hfx ▸ List.mem_map_of_mem _ hxLL
      · intro hgt
        have hfx : (if it.pos < x.pos then
            ({ x with pos := x.pos - 1 } : Item) else x) =
            (⟨x.id, x.pos - 1⟩ : Item) := if_pos hgt
        rw [he]
        exact hfx ▸ List.mem_map_of_mem _ hxLL
  · intro hnone
    have herr : remove s itemId = .error .notFound := by
      unfold remove
      rw [hnone]
    refine ⟨herr, fun st k hget => ?_⟩
    simp only [stepOp, hget, herr]

theorem remove_deletes_and_compacts_witness :
    Dense c5Scope ∧ (idsOf c5Scope).Nodup ∧
    ((∀ it, c5Scope.find? (fun x => x.id == 2) = some it →
      ∃ s', remove c5Scope 2 = .ok s' ∧
        s'.length + 1 = c5Scope.length ∧
        2 ∉ idsOf s' ∧
        (∀ x ∈ c5Scope, x.id ≠ 2 →
          (x.pos < it.pos → x ∈ s') ∧
          (it.pos < x.pos → (⟨x.id, x.pos - 1⟩ : Item) ∈ s')) ∧
        Dense s') ∧
    (c5Scope.find? (fun x => x.id == 2) = none →
      remove c5Scope 2 = .error .notFound ∧
      ∀ st k, getScope st k = some c5Scope → stepOp st (.removeOp k 2) = st)) :=
  ⟨by decide, by decide, remove_deletes_and_compacts c5Scope 2 (by decide) (by decide)⟩

/-! ## Claim C8 -/

theorem find?_id_map (s : Scope) (itemId : Nat) (f : Item → Item)
    (hfid : ∀ x, (f x).id = x.id) :
    (s.map f).find? (fun x => x.id == itemId) =
      (s.find? (fun x => x.id == itemId)).map f := by
  rw [List.find?_map]
  have hfun : ((fun x : Item => x.id == itemId) ∘ f) =
      (fun x : Item => x.id == itemId) := by
    funext x
    simp [Function.comp, hfid x]
  rw [hfun]

theorem moveWithin_fixpoint {s : Scope} {itemId p : Nat} (it : Item)
    (hfind : s.find? (fun x => x.id == itemId) = some it)
    (f : Item → Item)
    (hfid : ∀ x, (f x).id = x.id)
    (hfit : (f it).pos = min p (s.length - 1)) :
    moveWithinScope (s.map f) itemId p = .ok (s.map f) ∧
    (s.map f).find? (fun x => x.id == itemId) = some (f it) := by
  have hfind' : (s.map f).find? (fun x => x.id == itemId) = some (f it) := by
    rw [find?_id_map s itemId f hfid, hfind]
    rfl
  refine ⟨?_, hfind'⟩
  unfold moveWithinScope
  rw [hfind']
  dsimp only
  rw [List.length_map, if_pos hfit.symm]

/-- C8: calling `moveWithinScope(scope, id, p)` twice in a row is
idempotent — after the first successful call the moved item sits at the
clamped target (at `p` itself whenever `p` is in range), so the second
call is a no-op returning the state unchanged. -/
theorem moveWithin_idempotent (s : Scope) (itemId p : Nat) (s' : Scope)
    (h : Dense s) (hok : moveWithinScope s itemId p = .ok s') :
    moveWithinScope s' itemId p = .ok s' ∧
    (p < s.length → ∃ it', s'.find? (fun x => x.id == itemId) = some it' ∧
      it'.pos = p) := by
  unfold moveWithinScope at hok
  cases hfind : s.find? (fun x => x.id == itemId) with
  | none => rw [hfind] at hok; cases hok
  | some it =>
      rw [hfind] at hok
      dsimp only at hok
      have hitid : it.id = itemId := by simpa using List.find?_some hfind
      have hitmem := List.mem_of_find?_eq_some hfind
      have hcn : it.pos < s.length := h.pos_lt hitmem
      by_cases h1 : min p (s.length - 1) = it.pos
      · rw [if_pos h1] at hok
        cases hok
        have key := moveWithin_fixpoint it hfind id (fun x => rfl) (by simpa using h1.symm)
        rw [List.map_id] at key
        exact ⟨key.1, fun hp => ⟨it, hfind, by omega⟩⟩
      · rw [if_neg h1] at hok
        by_cases h2 : it.pos < min p (s.length - 1)
        · rw [if_pos h2] at hok
          cases hok
          have hfit : (fwdMap itemId it.pos (min p (s.length - 1)) it).pos =
              min p (s.length - 1) := by
            unfold fwdMap
            rw [if_pos ⟨hitid, rfl⟩]
          have key := moveWithin_fixpoint it hfind _
            (fwdMap_preserves_id itemId it.pos (min p (s.length - 1))) hfit
          refine ⟨key.1, fun hp => ⟨_, key.2, ?_⟩⟩
          rw [hfit]
          omega
        · rw [if_neg h2] at hok
          cases hok
          have hfit : (bwdMap itemId it.pos (min p (s.length - 1)) it).pos =
              min p (s.length - 1) := by
            unfold bwdMap
            rw [if_pos ⟨hitid, rfl⟩]
          have key := moveWithin_fixpoint it hfind _
            (bwdMap_preserves_id itemId it.pos (min p (s.length - 1))) hfit
          refine ⟨key.1, fun hp => ⟨_, key.2, ?_⟩⟩
          rw [hfit]
          omega

theorem moveWithin_idempotent_witness :
    Dense [(⟨1, 0⟩ : Item), ⟨2, 1⟩, ⟨3, 2⟩] ∧
    moveWithinScope [(⟨1, 0⟩ : Item), ⟨2, 1⟩, ⟨3, 2⟩] 1 2 =
      .ok [(⟨1, 2⟩ : Item), ⟨2, 0⟩, ⟨3, 1⟩] ∧
    (moveWithinScope [(⟨1, 2⟩ : Item), ⟨2, 0⟩, ⟨3, 1⟩] 1 2 =
        .ok [(⟨1, 2⟩ : Item), ⟨2, 0⟩, ⟨3, 1⟩] ∧
      ((2 : Nat) < 3 → ∃ it',
        ([(⟨1, 2⟩ : Item), ⟨2, 0⟩, ⟨3, 1⟩] : Scope).find?
          (fun x => x.id == 1) = some it' ∧ it'.pos = 2)) :=
  ⟨by decide, rfl,
    moveWithin_idempotent [⟨1, 0⟩, ⟨2, 1⟩, ⟨3, 2⟩] 1 2
      [⟨1, 2⟩, ⟨2, 0⟩, ⟨3, 1⟩] (by decide) rfl⟩

/-! ## Claim C4 -/

theorem idAt_eq {s : Scope} (h : Dense s) {x : Item} (hx : x ∈ s) :
    idAt s x.pos = x.id := by
  unfold idAt
  cases hf : s.find? (fun y => y.pos == x.pos) with
  | none =>
      exfalso
      have := List.find?_eq_none.1 hf x hx
      simp at this
  | some y =>
      have hy := List.mem_of_find?_eq_some hf
      have hyp : y.pos = x.pos := by simpa using List.find?_some hf
      have hyx : y = x := h.pos_inj hy hx hyp
      subst hyx
      rfl

theorem Dense.exists_at {s : Scope} (h : Dense s) {p : Nat}
    (hp : p < s.length) : ∃ x ∈ s, x.pos = p := by
  have hmem : p ∈ posSet s := h.mem_iff.2 (List.mem_range.2 hp)
  rcases List.mem_map.1 hmem with ⟨x, hx, hxp⟩
  exact ⟨x, hx, hxp⟩

theorem orderOf_length (s : Scope) : (orderOf s).length = s.length := by
  simp [orderOf]

theorem orderOf_getElem (s : Scope) (q : Nat) (hq : q < (orderOf s).length) :
    (orderOf s)[q] = idAt s q := by
  simp [orderOf]

theorem idAt_shift {s : Scope} (h : Dense s) {F : Item → Item} {g : Nat → Nat}
    (hd' : Dense (s.map F))
    (hpos : ∀ x ∈ s, (F x).pos = g x.pos)
    (hid : ∀ x : Item, (F x).id = x.id)
    {p : Nat} (hp : p < s.length) :
    idAt (s.map F) (g p) = idAt s p := by
  obtain ⟨x, hx, hxp⟩ := h.exists_at hp
  have h1 : idAt (s.map F) (F x).pos = (F x).id :=
    idAt_eq hd' (List.mem_map_of_mem F hx)
  rw [hpos x hx, hxp] at h1
  rw [h1, hid x, ← hxp]
  exact (idAt_eq h hx).symm

theorem orderOf_eq_eraseIdx_insertIdx {s s' : Scope} {c T itemId : Nat}
    (hlen : s'.length = s.length) (hc : c < s.length) (hT : T < s.length)
    (hq_eq : ∀ q, q < s.length → idAt s' q =
      if q = T then itemId
      else if q < T then (if q < c then idAt s q else idAt s (q + 1))
      else (if q - 1 < c then idAt s (q - 1) else idAt s q)) :
    orderOf s' = ((orderOf s).eraseIdx c).insertIdx T itemId := by
  have hol : (orderOf s).length = s.length := orderOf_length s
  have hol' : (orderOf s').length = s'.length := orderOf_length s'
  have hce : c < (orderOf s).length := by omega
  have hel : ((orderOf s).eraseIdx c).length + 1 = (orderOf s).length :=
    List.length_eraseIdx_add_one hce
  have hTle : T ≤ ((orderOf s).eraseIdx c).length := by omega
  have hinslen : (((orderOf s).eraseIdx c).insertIdx T itemId).length
      = ((orderOf s).eraseIdx c).length + 1 :=
    List.length_insertIdx _ _ hTle
  apply List.ext_getElem (by omega)
  intro q h1 h2
  have hqn : q < s.length := by omega
  rw [orderOf_getElem s' q h1, hq_eq q hqn]
  by_cases hqT : q = T
  · subst hqT
    rw [if_pos rfl, List.getElem_insertIdx_self _ _ _ hTle]
  · rw [if_neg hqT]
    by_cases hqT' : q < T
    · rw [if_pos hqT']
      have hq2 : q < ((orderOf s).eraseIdx c).length := by omega
      rw [List.getElem_insertIdx_of_lt _ _ _ _ hqT' hq2]
      rw [List.getElem_eraseIdx]
      by_cases hqc : q < c
      · rw [if_pos hqc, dif_pos hqc, orderOf_getElem]
      · rw [if_neg hqc, dif_neg hqc, orderOf_getElem]
    · rw [if_neg hqT']
      obtain ⟨k, hk⟩ : ∃ k, q = T + k + 1 := ⟨q - T - 1, by omega⟩
      subst hk
      have h2' : T + k < ((orderOf s).eraseIdx c).length := by omega
      rw [List.getElem_insertIdx_add_succ _ _ _ _ h2']
      rw [List.getElem_eraseIdx]
      by_cases hqc : T + k < c
      · rw [dif_pos hqc, if_pos (show T + k + 1 - 1 < c by omega)]
        rw [orderOf_getElem]
        congr 1
      · rw [dif_neg hqc, if_neg (show ¬ T + k + 1 - 1 < c by omega)]
        rw [orderOf_getElem]

/-- C4: `moveWithinScope(scope, itemId, targetPosition)`, with the target
clamped to `[0, count-1]`, realizes remove-then-insert-at-index on the
order: forward moves shift `(current, target]` down by 1, backward moves
shift `[target, current)` up by 1, the moved item takes the clamped
target, positions outside the shifted range are unchanged, and the
resulting order equals erasing the moved item's slot and re-inserting its
id at the clamped target index. -/
theorem moveWithin_remove_insert_semantics (s : Scope) (itemId target : Nat)
    (it : Item) (h : Dense s)
    (hfind : s.find? (fun x => x.id == itemId) = some it) :
    ∃ s', moveWithinScope s itemId target = .ok s' ∧
      s'.length = s.length ∧
      (⟨itemId, min target (s.length - 1)⟩ : Item) ∈ s' ∧
      (∀ x ∈ s, x.pos ≠ it.pos →
        ((it.pos < x.pos ∧ x.pos ≤ min target (s.length - 1)) →
          (⟨x.id, x.pos - 1⟩ : Item) ∈ s') ∧
        ((min target (s.length - 1) ≤ x.pos ∧ x.pos < it.pos) →
          (⟨x.id, x.pos + 1⟩ : Item) ∈ s') ∧
        ((x.pos < min it.pos (min target (s.length - 1)) ∨
            max it.pos (min target (s.length - 1)) < x.pos) → x ∈ s')) ∧
      orderOf s' = ((orderOf s).eraseIdx it.pos).insertIdx
        (min target (s.length - 1)) itemId ∧
      Dense s' := by
  have hitmem := List.mem_of_find?_eq_some hfind
  have hitid : it.id = itemId := by simpa using List.find?_some hfind
  have hc : it.pos < s.length := h.pos_lt hitmem
  set T := min target (s.length - 1) with hT
  have hTn : T < s.length := by omega
  by_cases h1 : T = it.pos
  · have hok : moveWithinScope s itemId target = .ok s := by
      unfold moveWithinScope
      rw [hfind]
      dsimp only
      rw [← hT, if_pos h1]
    refine ⟨s, hok, rfl, ?_, ?_, ?_, h⟩
    · have heq : (⟨itemId, T⟩ : Item) = it := by rw [← hitid, h1]
      rw [heq]
      exact hitmem
    · intro x hx hxc
      exact ⟨fun hr => absurd hr (by omega), fun hr => absurd hr (by omega),
        fun hr => hx⟩
    · refine orderOf_eq_eraseIdx_insertIdx rfl hc hTn ?_
      intro q hq
      by_cases hqT : q = T
      · rw [if_pos hqT, hqT, h1, idAt_eq h hitmem, hitid]
      · rw [if_neg hqT]
        by_cases hq' : q < T
        · rw [if_pos hq', if_pos (show q < it.pos by omega)]
        · rw [if_neg hq', if_neg (show ¬ q - 1 < it.pos by omega)]
  · by_cases h2 : it.pos < T
    · have hok : moveWithinScope s itemId target =
          .ok (s.map (fwdMap itemId it.pos T)) := by
        unfold moveWithinScope
        rw [hfind]
        dsimp only
        rw [← hT, if_neg h1, if_pos h2]
      have hd' : Dense (s.map (fwdMap itemId it.pos T)) := dense_moveWithin h hok
      have hshift : ∀ p, p < s.length →
          idAt (s.map (fwdMap itemId it.pos T)) (shiftFwd it.pos T p) =
            idAt s p :=
        fun p hp => idAt_shift h hd' (fwdMap_pos h hitmem hitid T)
          (fwdMap_preserves_id itemId it.pos T) hp
      refine ⟨_, hok, List.length_map _ _, ?_, ?_, ?_, hd'⟩
      · have hfit : fwdMap itemId it.pos T it = ⟨itemId, T⟩ := by
          unfold fwdMap
          rw [if_pos ⟨hitid, rfl⟩, ← hitid]
        rw [← hfit]
        exact List.mem_map_of_mem _ hitmem
      · intro x hx hxc
        have hnm : ¬ (x.id = itemId ∧ x.pos = it.pos) := fun hcond => hxc hcond.2
        refine ⟨?_, ?_, ?_⟩
        · intro hr
          have hfx : fwdMap itemId it.pos T x = ⟨x.id, x.pos - 1⟩ := by
            unfold fwdMap
            rw [if_neg hnm, if_pos hr]
          rw [← hfx]
          exact List.mem_map_of_mem _ hx
        · intro hr
          exact absurd hr (by omega)
        · intro hr
          have hfx : fwdMap itemId it.pos T x = x := by
            unfold fwdMap
            rw [if_neg hnm, if_neg (by omega)]
          rw [← hfx]
          exact List.mem_map_of_mem _ hx
      · refine orderOf_eq_eraseIdx_insertIdx (List.length_map _ _) hc hTn ?_
        intro q hq
        by_cases hqT : q = T
        · rw [if_pos hqT]
          have hsh := hshift it.pos hc
          rw [show shiftFwd it.pos T it.pos = T from by
            unfold shiftFwd; rw [if_pos rfl]] at hsh
          rw [hqT, hsh, idAt_eq h hitmem, hitid]
        · rw [if_neg hqT]
          by_cases hq' : q < T
          · rw [if_pos hq']
            by_cases hqc : q < it.pos
            · rw [if_pos hqc]
              have hsh := hshift q (by omega)
              rw [show shiftFwd it.pos T q = q from by
                unfold shiftFwd; split_ifs <;> omega] at hsh
              exact hsh
            · rw [if_neg hqc]
              have hsh := hshift (q + 1) (by omega)
              rw [show shiftFwd it.pos T (q + 1) = q from by
                unfold shiftFwd; split_ifs <;> omega] at hsh
              exact hsh
          · rw [if_neg hq', if_neg (show ¬ q - 1 < it.pos by omega)]
            have hsh := hshift q (by omega)
            rw [show shiftFwd it.pos T q = q from by
              unfold shiftFwd; split_ifs <;> omega] at hsh
            exact hsh
    · have h2' : T < it.pos := by omega
      have hok : moveWithinScope s itemId target =
          .ok (s.map (bwdMap itemId it.pos T)) := by
        unfold moveWithinScope
        rw [hfind]
        dsimp only
        rw [← hT, if_neg h1, if_neg h2]
      have hd' : Dense (s.map (bwdMap itemId it.pos T)) := dense_moveWithin h hok
      have hshift : ∀ p, p < s.length →
          idAt (s.map (bwdMap itemId it.pos T)) (shiftBwd it.pos T p) =
            idAt s p :=
        fun p hp => idAt_shift h hd' (bwdMap_pos h hitmem hitid T)
          (bwdMap_preserves_id itemId it.pos T) hp
      refine ⟨_, hok, List.length_map _ _, ?_, ?_, ?_, hd'⟩
      · have hfit : bwdMap itemId it.pos T it = ⟨itemId, T⟩ := by
          unfold bwdMap
          rw [if_pos ⟨hitid, rfl⟩, ← hitid]
        rw [← hfit]
        exact List.mem_map_of_mem _ hitmem
      · intro x hx hxc
        have hnm : ¬ (x.id = itemId ∧ x.pos = it.pos) := fun hcond => hxc hcond.2
        refine ⟨?_, ?_, ?_⟩
        · intro hr
          exact absurd hr (by omega)
        · intro hr
          have hfx : bwdMap itemId it.pos T x = ⟨x.id, x.pos + 1⟩ := by
            unfold bwdMap
            rw [if_neg hnm, if_pos hr]
          rw [← hfx]
          exact List.mem_map_of_mem _ hx
        · intro hr
          have hfx : bwdMap itemId it.pos T x = x := by
            unfold bwdMap
            rw [if_neg hnm, if_neg (by omega)]
          rw [← hfx]
          exact List.mem_map_of_mem _ hx
      · refine orderOf_eq_eraseIdx_insertIdx (List.length_map _ _) hc hTn ?_
        intro q hq
        by_cases hqT : q = T
        · rw [if_pos hqT]
          have hsh := hshift it.pos hc
          rw [show shiftBwd it.pos T it.pos = T from by
            unfold shiftBwd; rw [if_pos rfl]] at hsh
          rw [hqT, hsh, idAt_eq h hitmem, hitid]
        · rw [if_neg hqT]
          by_cases hq' : q < T
          · rw [if_pos hq', if_pos (show q < it.pos by omega)]
            have hsh := hshift q (by omega)
            rw [show shiftBwd it.pos T q = q from by
              unfold shiftBwd; split_ifs <;> omega] at hsh
            exact hsh
          · rw [if_neg hq']
            by_cases hqc : q - 1 < it.pos
            · rw [if_pos hqc]
              have hsh := hshift (q - 1) (by omega)
              rw [show shiftBwd it.pos T (q - 1) = q from by
                unfold shiftBwd; split_ifs <;> omega] at hsh
              exact hsh
            · rw [if_neg hqc]
              have hsh := hshift q (by omega)
              rw [show shiftBwd it.pos T q = q from by
                unfold shiftBwd; split_ifs <;> omega] at hsh
              exact hsh

theorem moveWithin_remove_insert_semantics_witness :
    Dense c4Scope ∧
    c4Scope.find? (fun x => x.id == 1) = some ⟨1, 0⟩ ∧
    (∃ s', moveWithinScope c4Scope 1 2 = .ok s' ∧
      s'.length = c4Scope.length ∧
      (⟨1, 2⟩ : Item) ∈ s' ∧
      (∀ x ∈ c4Scope, x.pos ≠ (0 : Nat) →
        (((0 : Nat) < x.pos ∧ x.pos ≤ 2) → (⟨x.id, x.pos - 1⟩ : Item) ∈ s') ∧
        (((2 : Nat) ≤ x.pos ∧ x.pos < 0) → (⟨x.id, x.pos + 1⟩ : Item) ∈ s') ∧
        ((x.pos < min 0 2 ∨ max 0 2 < x.pos) → x ∈ s')) ∧
      orderOf s' = ((orderOf c4Scope).eraseIdx 0).insertIdx 2 1 ∧
      Dense s') :=
  ⟨by decide, rfl,
    moveWithin_remove_insert_semantics c4Scope 1 2 ⟨1, 0⟩ (by decide) rfl⟩

/-! ## Claim C7 -/

theorem foldl_min_mem (l : List ColumnRow) (a : ColumnRow) :
    l.foldl (fun b x => if x.position < b.position then x else b) a ∈ a :: l := by
  induction l generalizing a with
  | nil => exact List.mem_cons_self a []
  | cons x l ih =>
      have h := ih (if x.position < a.position then x else a)
      rw [List.foldl_cons]
      rcases List.mem_cons.1 h with h | h
      · rw [h]
        by_cases hc : x.position < a.position
        · rw [if_pos hc]
          exact List.mem_cons_of_mem _ (List.mem_cons_self x l)
        · rw [if_neg hc]
          exact List.mem_cons_self a (x :: l)
      · exact List.mem_cons_of_mem _ (List.mem_cons_of_mem _ h)

theorem firstColumn_mem {cols : List ColumnRow} {c : ColumnRow}
    (h : firstColumn cols = some c) : c ∈ cols := by
  cases cols with
  | nil => cases h
  | cons a l =>
      unfold firstColumn at h
      have := foldl_min_mem l a
      rwa [Option.some.inj h] at this

/-- C7 counterexample: deleting the only remaining column of a board that
still owns a card is not rejected — per the repository's Task 2
description (`delete column (move cards to first remaining column, or
delete if last column)`) the operation succeeds, deleting the column and,
by cascade, its card. -/
theorem deleteColumn_last_column_succeeds :
    deleteColumn c7Board 1 = .ok ⟨[], []⟩ := rfl

/-- C7 amended: a board owning at least one card always owns at least one
column, but not because last-column deletion is rejected: deleting a
column relocates its cards to the first remaining column, and deleting the
last column cascade-deletes its cards, so no reachable state has a card
without a column. -/
theorem deleteColumn_never_orphans (b : BoardRows) (colId : Nat)
    (b' : BoardRows) (h : CardsHaveColumn b)
    (hok : deleteColumn b colId = .ok b') :
    CardsHaveColumn b' ∧ (b'.cards ≠ [] → b'.columns ≠ []) := by
  have main : CardsHaveColumn b' := by
    unfold deleteColumn at hok
    cases hfind : b.columns.find? (fun c => c.id == colId) with
    | none => rw [hfind] at hok; cases hok
    | some col =>
        rw [hfind] at hok
        dsimp only at hok
        cases hfc : firstColumn (b.columns.filter (fun c => c.id != colId)) with
        | none =>
            rw [hfc] at hok
            cases hok
            intro c hc
            exfalso
            have hcid : c.column_id ≠ colId := by
              have := List.of_mem_filter hc
              simpa using this
            obtain ⟨col₀, hcol₀, hcol₀id⟩ := h c (List.mem_of_mem_filter hc)
            have hfe : b.columns.filter (fun c => c.id != colId) = [] := by
              cases hfe : b.columns.filter (fun c => c.id != colId) with
              | nil => rfl
              | cons a l =>
                  rw [hfe] at hfc
                  cases hfc
            have hnotin : col₀ ∉ b.columns.filter (fun c => c.id != colId) := by
              rw [hfe]
              simp
            have hcol : col₀.id = colId := by
              by_contra hne
              exact hnotin (List.mem_filter.2 ⟨hcol₀, by simpa using hne⟩)
            exact hcid (hcol₀id ▸ hcol)
        | some tgt =>
            rw [hfc] at hok
            cases hok
            have htgtmem : tgt ∈ b.columns.filter (fun c => c.id != colId) :=
              firstColumn_mem hfc
            intro c hc
            rcases List.mem_map.1 hc with ⟨c₀, hc₀, hcc⟩
            subst hcc
            by_cases hcol : c₀.column_id = colId
            · rw [if_pos hcol]
              refine ⟨if col.position < tgt.position then
                  { tgt with position := tgt.position - 1 } else tgt,
                List.mem_map_of_mem _ htgtmem, ?_⟩
              split_ifs <;> rfl
            · rw [if_neg hcol]
              obtain ⟨col₀, hcol₀, hcol₀id⟩ := h c₀ hc₀
              have hcol₀ne : col₀.id ≠ colId := by
                rw [hcol₀id]
                exact hcol
              have hmemf : col₀ ∈ b.columns.filter (fun c => c.id != colId) :=
                List.mem_filter.2 ⟨hcol₀, by simpa using hcol₀ne⟩
              refine ⟨if col.position < col₀.position then
                  { col₀ with position := col₀.position - 1 } else col₀,
                List.mem_map_of_mem _ hmemf, ?_⟩
              split_ifs <;> exact hcol₀id
  refine ⟨main, fun hne => ?_⟩
  rcases List.exists_mem_of_ne_nil _ hne with ⟨c, hc⟩
  obtain ⟨col, hcol, -⟩ := main c hc
  exact List.ne_nil_of_mem hcol

theorem deleteColumn_never_orphans_witness :
    CardsHaveColumn c7Board2 ∧
    deleteColumn c7Board2 1 = .ok ⟨[⟨2, 0⟩], [⟨10, 2⟩]⟩ ∧
    (CardsHaveColumn (⟨[⟨2, 0⟩], [⟨10, 2⟩]⟩ : BoardRows) ∧
      ((⟨[⟨2, 0⟩], [⟨10, 2⟩]⟩ : BoardRows).cards ≠ [] →
        (⟨[⟨2, 0⟩], [⟨10, 2⟩]⟩ : BoardRows).columns ≠ [])) :=
  ⟨by decide, rfl,
    deleteColumn_never_orphans c7Board2 1 ⟨[⟨2, 0⟩], [⟨10, 2⟩]⟩
      (by decide) rfl⟩

/-! ## Claim C9 -/

/-- C9: a card's labels are embedded value snapshots, not live references:
deleting a Label entity leaves the board's cards entirely unchanged, and a
card that embedded a copy of the label at assignment time still carries
the copied name and color after the Label entity is deleted. -/
theorem deleteLabel_leaves_cards_unchanged (b : LabelBoard) (labelId : Nat) :
    (deleteLabel b labelId).cards = b.cards ∧
    (∀ l, b.labels.find? (fun x => x.id == labelId) = some l →
      ∀ cardId, cardId ∈ b.cards.map Card.id →
        ∃ c ∈ (deleteLabel (assignLabel b cardId labelId) labelId).cards,
          c.id = cardId ∧ l ∈ c.labels) := by
  refine ⟨rfl, ?_⟩
  intro l hfind cardId hcard
  rcases List.mem_map.1 hcard with ⟨c₀, hc₀, hcid⟩
  have hassign : (assignLabel b cardId labelId).cards = b.cards.map (fun c =>
      if c.id = cardId then { c with labels := c.labels ++ [l] } else c) := by
    unfold assignLabel
    rw [hfind]
  refine ⟨{ c₀ with labels := c₀.labels ++ [l] }, ?_, hcid, ?_⟩
  · show _ ∈ (assignLabel b cardId labelId).cards
    rw [hassign]
    have : (if c₀.id = cardId then { c₀ with labels := c₀.labels ++ [l] }
        else c₀) = { c₀ with labels := c₀.labels ++ [l] } := if_pos hcid
    exact this ▸ List.mem_map_of_mem _ hc₀
  · exact List.mem_append.2 (Or.inr (List.mem_singleton.2 rfl))

theorem deleteLabel_leaves_cards_unchanged_witness :
    (deleteLabel c9Board 5).cards = c9Board.cards ∧
    (∀ l, c9Board.labels.find? (fun x => x.id == 5) = some l →
      ∀ cardId, cardId ∈ c9Board.cards.map Card.id →
        ∃ c ∈ (deleteLabel (assignLabel c9Board cardId 5) 5).cards,
          c.id = cardId ∧ l ∈ c.labels) :=
  deleteLabel_leaves_cards_unchanged c9Board 5

/-! ## Claim C10 -/

theorem map_preserves_column_ids {cols : List Column} {F : Column → Column}
    (h : ∀ c, (F c).id = c.id) :
    (cols.map F).map Column.id = cols.map Column.id := by
  rw [List.map_map]
  exact List.map_congr_left (fun c _ => by
    simp only [Function.comp_apply]
    exact h c)

theorem map_preserves_card_ids {cs : List Card} {F : Card → Card}
    (h : ∀ c, (F c).id = c.id) :
    (cs.map F).map Card.id = cs.map Card.id := by
  rw [List.map_map]
  exact List.map_congr_left (fun c _ => by
    simp only [Function.comp_apply]
    exact h c)

theorem storeUpdateCard_consistent {bd : BoardDetail} (h : Consistent bd)
    (cardId : Nat) (title : String) (descr : Option String) (prio : Priority)
    (labels : List Label) :
    Consistent (storeUpdateCard bd cardId title descr prio labels) := by
  obtain ⟨hcn, hdn, hcin, hexcol, hmem, hback⟩ := h
  unfold storeUpdateCard
  set F := fun c : Card =>
    if c.id = cardId then (⟨c.id, title, descr, prio, labels, c.column_id⟩ : Card)
    else c with hF
  have hFid : ∀ c, (F c).id = c.id := by
    intro c
    rw [hF]
    dsimp only
    split_ifs <;> rfl
  have hFcol : ∀ c, (F c).column_id = c.column_id := by
    intro c
    rw [hF]
    dsimp only
    split_ifs <;> rfl
  refine ⟨hcn, ?_, hcin, ?_, ?_, ?_⟩
  · rw [map_preserves_card_ids hFid]
    exact hdn
  · intro card' hcard'
    rcases List.mem_map.1 hcard' with ⟨card, hcard, hcc⟩
    subst hcc
    rw [hFcol card]
    exact hexcol card hcard
  · intro card' hcard' col hcol
    rcases List.mem_map.1 hcard' with ⟨card, hcard, hcc⟩
    subst hcc
    rw [hFid card, hFcol card]
    exact hmem card hcard col hcol
  · intro col hcol i hi
    obtain ⟨card, hcard, hcid⟩ := hback col hcol i hi
    exact ⟨F card, List.mem_map_of_mem F hcard, by rw [hFid card]; exact hcid⟩

theorem storeAddColumn_consistent {bd : BoardDetail} (h : Consistent bd)
    (colId : Nat) (name : String) :
    Consistent (storeAddColumn bd colId name) := by
  obtain ⟨hcn, hdn, hcin, hexcol, hmem, hback⟩ := h
  unfold storeAddColumn
  by_cases hguard : ∃ c ∈ bd.columns, c.id = colId
  · rw [if_pos hguard]
    exact ⟨hcn, hdn, hcin, hexcol, hmem, hback⟩
  · rw [if_neg hguard]
    refine ⟨?_, hdn, ?_, ?_, ?_, ?_⟩
    · rw [List.map_append]
      refine List.Nodup.append hcn (List.nodup_singleton _) ?_
      intro a ha hb
      rcases List.mem_map.1 ha with ⟨c, hc, hcid⟩
      simp only [List.map_cons, List.map_nil, List.mem_singleton] at hb
      subst hb
      exact hguard ⟨c, hc, hcid⟩
    · intro col hcol
      rcases List.mem_append.1 hcol with hcol | hcol
      · exact hcin col hcol
      · rw [List.mem_singleton] at hcol
        subst hcol
        exact List.nodup_nil
    · intro card hcard
      obtain ⟨col, hcol, hcid⟩ := hexcol card hcard
      exact ⟨col, List.mem_append.2 (Or.inl hcol), hcid⟩
    · intro card hcard col hcol
      rcases List.mem_append.1 hcol with hcol | hcol
      · exact hmem card hcard col hcol
      · rw [List.mem_singleton] at hcol
        subst hcol
        constructor
        · intro hfalse
          cases hfalse
        · intro hid
          exfalso
          obtain ⟨col₀, hcol₀, hcid₀⟩ := hexcol card hcard
          exact hguard ⟨col₀, hcol₀, by rw [hcid₀, ← hid]⟩
    · intro col hcol i hi
      rcases List.mem_append.1 hcol with hcol | hcol
      · exact hback col hcol i hi
      · rw [List.mem_singleton] at hcol
        subst hcol
        cases hi

theorem storeDeleteCard_consistent {bd : BoardDetail} (h : Consistent bd)
    (cardId : Nat) : Consistent (storeDeleteCard bd cardId) := by
  obtain ⟨hcn, hdn, hcin, hexcol, hmem, hback⟩ := h
  unfold storeDeleteCard
  have hGid : ∀ c : Column,
      ((fun col => ({ col with
          card_ids := col.card_ids.filter (fun i => i != cardId) } : Column)) c).id
        = c.id := fun c => rfl
  refine ⟨?_, ?_, ?_, ?_, ?_, ?_⟩
  · rw [map_preserves_column_ids hGid]
    exact hcn
  · have hsub : ((bd.cards.filter (fun c => c.id != cardId)).map Card.id).Sublist
        (bd.cards.map Card.id) := (List.filter_sublist bd.cards).map Card.id
    exact hdn.sublist hsub
  · intro col' hcol'
    rcases List.mem_map.1 hcol' with ⟨col, hcol, hcc⟩
    subst hcc
    exact (hcin col hcol).filter _
  · intro card hcard
    have hcard₀ := List.mem_of_mem_filter hcard
    obtain ⟨col, hcol, hcid⟩ := hexcol card hcard₀
    exact ⟨{ col with card_ids := col.card_ids.filter (fun i => i != cardId) },
      List.mem_map_of_mem _ hcol, hcid⟩
  · intro card hcard col' hcol'
    rcases List.mem_map.1 hcol' with ⟨col, hcol, hcc⟩
    subst hcc
    have hcard₀ := List.mem_of_mem_filter hcard
    have hne : card.id ≠ cardId := by
      have := List.of_mem_filter hcard
      simpa using this
    constructor
    · intro hin
      exact (hmem card hcard₀ col hcol).1 (List.mem_of_mem_filter hin)
    · intro hid
      exact List.mem_filter.2 ⟨(hmem card hcard₀ col hcol).2 hid, by simpa using hne⟩
  · intro col' hcol' i hi
    rcases List.mem_map.1 hcol' with ⟨col, hcol, hcc⟩
    subst hcc
    have hiin := List.mem_of_mem_filter hi
    have hine : i ≠ cardId := by
      have := List.of_mem_filter hi
      simpa using this
    obtain ⟨card, hcard, hcid⟩ := hback col hcol i hiin
    refine ⟨card, List.mem_filter.2 ⟨hcard, ?_⟩, hcid⟩
    simpa using hcid ▸ hine

theorem storeAddCard_consistent {bd : BoardDetail} (h : Consistent bd)
    (cardId colId : Nat) (title : String) :
    Consistent (storeAddCard bd cardId colId title) := by
  obtain ⟨hcn, hdn, hcin, hexcol, hmem, hback⟩ := h
  unfold storeAddCard
  by_cases hguard : (∃ c ∈ bd.cards, c.id = cardId) ∨
      (∀ c ∈ bd.columns, c.id ≠ colId)
  · rw [if_pos hguard]
    exact ⟨hcn, hdn, hcin, hexcol, hmem, hback⟩
  · rw [if_neg hguard]
    push_neg at hguard
    obtain ⟨hfresh, colT, hcolT, hcolTid⟩ := hguard
    set G := fun col : Column =>
      if col.id = colId then { col with card_ids := col.card_ids ++ [cardId] }
      else col with hG
    have hGid : ∀ c, (G c).id = c.id := by
      intro c
      rw [hG]
      dsimp only
      split_ifs <;> rfl
    have hfresh' : cardId ∉ bd.cards.map Card.id := by
      intro hmm
      rcases List.mem_map.1 hmm with ⟨c, hc, hcid⟩
      exact hfresh c hc hcid
    have hfreshcol : ∀ col ∈ bd.columns, cardId ∉ col.card_ids := by
      intro col hcol hin
      obtain ⟨card, hcard, hcid⟩ := hback col hcol cardId hin
      exact hfresh card hcard hcid
    refine ⟨?_, ?_, ?_, ?_, ?_, ?_⟩
    · rw [map_preserves_column_ids hGid]
      exact hcn
    · rw [List.map_append]
      refine List.Nodup.append hdn (List.nodup_singleton cardId) ?_
      intro a ha hb
      simp only [List.map_cons, List.map_nil, List.mem_singleton] at hb
      subst hb
      exact hfresh' ha
    · intro col' hcol'
      rcases List.mem_map.1 hcol' with ⟨col, hcol, hcc⟩
      subst hcc
      rw [hG]
      dsimp only
      split_ifs with hc
      · refine List.Nodup.append (hcin col hcol) (List.nodup_singleton cardId) ?_
        intro a ha hb
        rw [List.mem_singleton] at hb
        subst hb
        exact hfreshcol col hcol ha
      · exact hcin col hcol
    · intro card hcard
      rcases List.mem_append.1 hcard with hcard | hcard
      · obtain ⟨col, hcol, hcid⟩ := hexcol card hcard
        exact ⟨G col, List.mem_map_of_mem G hcol, by rw [hGid col]; exact hcid⟩
      · simp only [List.mem_singleton] at hcard
        subst hcard
        refine ⟨G colT, List.mem_map_of_mem G hcolT, ?_⟩
        rw [hGid colT]
        exact hcolTid
    · intro card hcard col' hcol'
      rcases List.mem_map.1 hcol' with ⟨col, hcol, hcc⟩
      subst hcc
      rcases List.mem_append.1 hcard with hcard | hcard
      · have hcardne : card.id ≠ cardId := hfresh card hcard
        rw [hG]
        dsimp only
        split_ifs with hc
        · constructor
          · intro hin
            rcases List.mem_append.1 hin with hin | hin
            · exact (hmem card hcard col hcol).1 hin
            · rw [List.mem_singleton] at hin
              exact absurd hin hcardne
          · intro hid
            exact List.mem_append.2 (Or.inl ((hmem card hcard col hcol).2 hid))
        · exact hmem card hcard col hcol
      · simp only [List.mem_singleton] at hcard
        subst hcard
        rw [hG]
        dsimp only
        split_ifs with hc
        · constructor
          · intro hin
            exact hc
          · intro hid
            exact List.mem_append.2 (Or.inr (List.mem_singleton.2 rfl))
        · constructor
          · intro hin
            exact absurd hin (hfreshcol col hcol)
          · intro hid
            exact absurd hid hc
    · intro col' hcol' i hi
      rcases List.mem_map.1 hcol' with ⟨col, hcol, hcc⟩
      subst hcc
      rw [hG] at hi
      dsimp only at hi
      split_ifs at hi with hc
      · rcases List.mem_append.1 hi with hi | hi
        · obtain ⟨card, hcard, hcid⟩ := hback col hcol i hi
          exact ⟨card, List.mem_append.2 (Or.inl hcard), hcid⟩
        · rw [List.mem_singleton] at hi
          subst hi
          exact ⟨_, List.mem_append.2 (Or.inr (List.mem_singleton.2 rfl)), rfl⟩
      · obtain ⟨card, hcard, hcid⟩ := hback col hcol i hi
        exact ⟨card, List.mem_append.2 (Or.inl hcard), hcid⟩

theorem mem_reordered {cols : List Column} (hnd : (cols.map Column.id).Nodup)
    {ids : List Nat} {col' : Column} :
    col' ∈ ids.filterMap (fun i => cols.find? (fun c => c.id == i)) ↔
      col' ∈ cols ∧ col'.id ∈ ids := by
  rw [List.mem_filterMap]
  constructor
  · rintro ⟨i, hi, hf⟩
    have hmem := List.mem_of_find?_eq_some hf
    have hid : col'.id = i := by simpa using List.find?_some hf
    exact ⟨hmem, hid ▸ hi⟩
  · rintro ⟨hmem, hid⟩
    refine ⟨col'.id, hid, ?_⟩
    cases hf : cols.find? (fun c => c.id == col'.id) with
    | none =>
        exfalso
        have := List.find?_eq_none.1 hf col' hmem
        simp at this
    | some col'' =>
        have hmem'' := List.mem_of_find?_eq_some hf
        have hid'' : col''.id = col'.id := by simpa using List.find?_some hf
        rw [List.inj_on_of_nodup_map hnd hmem'' hmem hid'']

theorem reordered_map_id {cols : List Column} {ids : List Nat}
    (hin : ∀ i ∈ ids, i ∈ cols.map Column.id) :
    (ids.filterMap (fun i => cols.find? (fun c => c.id == i))).map Column.id
      = ids := by
  induction ids with
  | nil => rfl
  | cons i ids ih =>
      have hi : i ∈ cols.map Column.id := hin i (List.mem_cons_self _ _)
      rcases List.mem_map.1 hi with ⟨c₀, hc₀, hc₀id⟩
      cases hf : cols.find? (fun c => c.id == i) with
      | none =>
          exfalso
          have := List.find?_eq_none.1 hf c₀ hc₀
          simp [hc₀id] at this
      | some col' =>
          have hid : col'.id = i := by simpa using List.find?_some hf
          simp only [List.filterMap_cons, hf, List.map_cons, hid]
          rw [ih (fun j hj => hin j (List.mem_cons_of_mem _ hj))]

theorem storeReorderColumns_consistent {bd : BoardDetail} (h : Consistent bd)
    (ids : List Nat) : Consistent (storeReorderColumns bd ids) := by
  obtain ⟨hcn, hdn, hcin, hexcol, hmem, hback⟩ := h
  unfold storeReorderColumns
  by_cases hguard : ids.Nodup ∧ (∀ c ∈ bd.columns, c.id ∈ ids) ∧
      (∀ i ∈ ids, i ∈ bd.columns.map Column.id)
  case neg =>
    rw [if_neg hguard]
    exact ⟨hcn, hdn, hcin, hexcol, hmem, hback⟩
  rw [if_pos hguard]
  obtain ⟨hidnd, hallin, hidin⟩ := hguard
  refine ⟨?_, hdn, ?_, ?_, ?_, ?_⟩
  · rw [reordered_map_id hidin]
    exact hidnd
  · intro col' hcol'
    exact hcin col' ((mem_reordered hcn).1 hcol').1
  · intro card hcard
    obtain ⟨col, hcol, hcid⟩ := hexcol card hcard
    exact ⟨col, (mem_reordered hcn).2 ⟨hcol, hallin col hcol⟩, hcid⟩
  · intro card hcard col' hcol'
    exact hmem card hcard col' ((mem_reordered hcn).1 hcol').1
  · intro col' hcol' i hi
    exact hback col' ((mem_reordered hcn).1 hcol').1 i hi

theorem storeMoveCard_consistent {bd : BoardDetail} (h : Consistent bd)
    (cardId targetCol pos : Nat) :
    Consistent (storeMoveCard bd cardId targetCol pos) := by
  obtain ⟨hcn, hdn, hcin, hexcol, hmem, hback⟩ := h
  unfold storeMoveCard
  by_cases hguard : (∀ c ∈ bd.cards, c.id ≠ cardId) ∨
      (∀ c ∈ bd.columns, c.id ≠ targetCol)
  case pos =>
    rw [if_pos hguard]
    exact ⟨hcn, hdn, hcin, hexcol, hmem, hback⟩
  rw [if_neg hguard]
  push_neg at hguard
  obtain ⟨⟨card₀, hcard₀, hcard₀id⟩, colT, hcolT, hcolTid⟩ := hguard
  set H := fun c : Card =>
    if c.id = cardId then { c with column_id := targetCol } else c with hH
  set G := fun col : Column =>
    if col.id = targetCol then
      { col with card_ids := (col.card_ids.filter (fun i => i != cardId)).insertIdx (min pos (col.card_ids.filter (fun i => i != cardId)).length) cardId }
    else { col with card_ids := col.card_ids.filter (fun i => i != cardId) }
    with hG
  have hHid : ∀ c, (H c).id = c.id := by
    intro c
    rw [hH]
    dsimp only
    split_ifs <;> rfl
  have hGid : ∀ c, (G c).id = c.id := by
    intro c
    rw [hG]
    dsimp only
    split_ifs <;> rfl
  have hmemins : ∀ col (i : Nat), i ∈ (G col).card_ids ↔
      (col.id = targetCol ∧ i = cardId) ∨ (i ∈ col.card_ids ∧ i ≠ cardId) := by
    intro col i
    rw [hG]
    dsimp only
    split_ifs with hc
    · rw [List.mem_insertIdx (min_le_right _ _)]
      constructor
      · rintro (hi | hi)
        · exact Or.inl ⟨hc, hi⟩
        · rcases List.mem_filter.1 hi with ⟨h1, h2⟩
          exact Or.inr ⟨h1, by simpa using h2⟩
      · rintro (⟨-, hi⟩ | ⟨h1, h2⟩)
        · exact Or.inl hi
        · exact Or.inr (List.mem_filter.2 ⟨h1, by simpa using h2⟩)
    · constructor
      · intro hi
        rcases List.mem_filter.1 hi with ⟨h1, h2⟩
        exact Or.inr ⟨h1, by simpa using h2⟩
      · rintro (⟨hcc, -⟩ | ⟨h1, h2⟩)
        · exact absurd hcc hc
        · exact List.mem_filter.2 ⟨h1, by simpa using h2⟩
  refine ⟨?_, ?_, ?_, ?_, ?_, ?_⟩
  · rw [map_preserves_column_ids hGid]
    exact hcn
  · rw [map_preserves_card_ids hHid]
    exact hdn
  · intro col' hcol'
    rcases List.mem_map.1 hcol' with ⟨col, hcol, hcc⟩
    subst hcc
    rw [hG]
    dsimp only
    split_ifs with hc
    · have hnotin : cardId ∉ col.card_ids.filter (fun i => i != cardId) := by
        intro hmm
        have := List.of_mem_filter hmm
        simp at this
      have hperm := List.perm_insertIdx cardId
        (col.card_ids.filter (fun i => i != cardId)) (min_le_right pos _)
      exact hperm.nodup_iff.2
        (List.nodup_cons.2 ⟨hnotin, (hcin col hcol).filter _⟩)
    · exact (hcin col hcol).filter _
  · intro card' hcard'
    rcases List.mem_map.1 hcard' with ⟨card, hcard, hcc⟩
    subst hcc
    by_cases hc : card.id = cardId
    · have hcc' : (H card).column_id = targetCol := by
        rw [hH]
        dsimp only
        rw [if_pos hc]
      rw [hcc']
      exact ⟨G colT, List.mem_map_of_mem G hcolT, by rw [hGid colT]; exact hcolTid⟩
    · have hcc' : (H card).column_id = card.column_id := by
        rw [hH]
        dsimp only
        rw [if_neg hc]
      rw [hcc']
      obtain ⟨col, hcol, hcid⟩ := hexcol card hcard
      exact ⟨G col, List.mem_map_of_mem G hcol, by rw [hGid col]; exact hcid⟩
  · intro card' hcard' col' hcol'
    rcases List.mem_map.1 hcard' with ⟨card, hcard, hcc⟩
    subst hcc
    rcases List.mem_map.1 hcol' with ⟨col, hcol, hcc⟩
    subst hcc
    rw [hHid card, hGid col, hmemins col card.id]
    by_cases hc : card.id = cardId
    · have hcc' : (H card).column_id = targetCol := by
        rw [hH]
        dsimp only
        rw [if_pos hc]
      rw [hcc']
      constructor
      · rintro (⟨h1, -⟩ | ⟨-, h2⟩)
        · exact h1
        · exact absurd hc h2
      · intro h1
        exact Or.inl ⟨h1, hc⟩
    · have hcc' : (H card).column_id = card.column_id := by
        rw [hH]
        dsimp only
        rw [if_neg hc]
      rw [hcc']
      constructor
      · rintro (⟨-, h2⟩ | ⟨h1, -⟩)
        · exact absurd h2 hc
        · exact (hmem card hcard col hcol).1 h1
      · intro h1
        exact Or.inr ⟨(hmem card hcard col hcol).2 h1, hc⟩
  · intro col' hcol' i hi
    rcases List.mem_map.1 hcol' with ⟨col, hcol, hcc⟩
    subst hcc
    rcases (hmemins col i).1 hi with ⟨-, hieq⟩ | ⟨h1, -⟩
    · refine ⟨H card₀, List.mem_map_of_mem H hcard₀, ?_⟩
      rw [hHid card₀, hcard₀id, hieq]
    · obtain ⟨card, hcard, hcid⟩ := hback col hcol i h1
      exact ⟨H card, List.mem_map_of_mem H hcard, by rw [hHid card]; exact hcid⟩

theorem storeDeleteColumn_consistent {bd : BoardDetail} (h : Consistent bd)
    (colId : Nat) : Consistent (storeDeleteColumn bd colId) := by
  obtain ⟨hcn, hdn, hcin, hexcol, hmem, hback⟩ := h
  unfold storeDeleteColumn
  cases hfind : bd.columns.find? (fun c => c.id == colId) with
  | none => exact ⟨hcn, hdn, hcin, hexcol, hmem, hback⟩
  | some col =>
      have hcolmem := List.mem_of_find?_eq_some hfind
      have hcolid : col.id = colId := by simpa using List.find?_some hfind
      have hcolinj : ∀ ⦃a⦄, a ∈ bd.columns → ∀ ⦃b⦄, b ∈ bd.columns →
          a.id = b.id → a = b := List.inj_on_of_nodup_map hcn
      cases hfil : bd.columns.filter (fun c => c.id != colId) with
      | nil =>
          refine ⟨List.nodup_nil, ?_, ?_, ?_, ?_, ?_⟩
          · exact hdn.sublist ((List.filter_sublist _).map Card.id)
          · intro col' hcol'
            exact absurd hcol' (List.not_mem_nil _)
          · intro card hcard
            exfalso
            have hcne : card.column_id ≠ colId := by
              have := List.of_mem_filter hcard
              simpa using this
            obtain ⟨col₀, hcol₀, hcid₀⟩ :=
              hexcol card (List.mem_of_mem_filter hcard)
            have hnotin : col₀ ∉ bd.columns.filter (fun c => c.id != colId) := by
              rw [hfil]
              exact List.not_mem_nil _
            have hcoleq : col₀.id = colId := by
              by_contra hne
              exact hnotin (List.mem_filter.2 ⟨hcol₀, by simpa using hne⟩)
            exact hcne (hcid₀ ▸ hcoleq)
          · intro card hcard col' hcol'
            exact absurd hcol' (List.not_mem_nil _)
          · intro col' hcol'
            exact absurd hcol' (List.not_mem_nil _)
      | cons tgt rest =>
          dsimp only
          have htgtf : tgt ∈ bd.columns.filter (fun c => c.id != colId) := by
            rw [hfil]
            exact List.mem_cons_self _ _
          have htgtmem : tgt ∈ bd.columns := List.mem_of_mem_filter htgtf
          have htgtne : tgt.id ≠ colId := by
            have := List.of_mem_filter htgtf
            simpa using this
          have hfmem : ∀ c : Column, c ∈ tgt :: rest ↔
              c ∈ bd.columns ∧ c.id ≠ colId := by
            intro c
            rw [← hfil]
            constructor
            · intro hc
              refine ⟨List.mem_of_mem_filter hc, ?_⟩
              have := List.of_mem_filter hc
              simpa using this
            · rintro ⟨h1, h2⟩
              exact List.mem_filter.2 ⟨h1, by simpa using h2⟩
          set G := fun c : Column =>
            if c.id = tgt.id then { c with card_ids := c.card_ids ++ col.card_ids }
            else c with hG
          set Hc := fun c : Card =>
            if c.column_id = colId then { c with column_id := tgt.id } else c
            with hHc
          have hGid : ∀ c, (G c).id = c.id := by
            intro c
            rw [hG]
            dsimp only
            split_ifs <;> rfl
          have hHid : ∀ c, (Hc c).id = c.id := by
            intro c
            rw [hHc]
            dsimp only
            split_ifs <;> rfl
          have hfilnd : ((tgt :: rest).map Column.id).Nodup := by
            rw [← hfil]
            exact hcn.sublist ((List.filter_sublist _).map Column.id)
          have hdisj : ∀ i ∈ tgt.card_ids, i ∉ col.card_ids := by
            intro i hi hic
            obtain ⟨card, hcard, hcid⟩ := hback tgt htgtmem i hi
            have h1 : tgt.id = card.column_id :=
              (hmem card hcard tgt htgtmem).1 (hcid ▸ hi)
            have h2 : col.id = card.column_id :=
              (hmem card hcard col hcolmem).1 (hcid ▸ hic)
            exact htgtne (by rw [h1, ← h2, hcolid])
          refine ⟨?_, ?_, ?_, ?_, ?_, ?_⟩
          · rw [map_preserves_column_ids hGid]
            exact hfilnd
          · rw [map_preserves_card_ids hHid]
            exact hdn
          · intro col' hcol'
            rcases List.mem_map.1 hcol' with ⟨c, hcf, hcc⟩
            subst hcc
            have hcmem : c ∈ bd.columns := ((hfmem c).1 hcf).1
            rw [hG]
            dsimp only
            split_ifs with hct
            · have hceq : c = tgt := hcolinj hcmem htgtmem hct
              subst hceq
              refine List.Nodup.append (hcin c hcmem) (hcin col hcolmem) ?_
              intro a ha hb
              exact hdisj a ha hb
            · exact hcin c hcmem
          · intro card' hcard'
            rcases List.mem_map.1 hcard' with ⟨card, hcard, hcc⟩
            subst hcc
            by_cases hmv : card.column_id = colId
            · have hcc' : (Hc card).column_id = tgt.id := by
                rw [hHc]
                dsimp only
                rw [if_pos hmv]
              rw [hcc']
              exact ⟨G tgt, List.mem_map_of_mem G (List.mem_cons_self _ _),
                by rw [hGid tgt]⟩
            · have hcc' : (Hc card).column_id = card.column_id := by
                rw [hHc]
                dsimp only
                rw [if_neg hmv]
              rw [hcc']
              obtain ⟨col₀, hcol₀, hcid₀⟩ := hexcol card hcard
              have hc₀f : col₀ ∈ tgt :: rest :=
                (hfmem col₀).2 ⟨hcol₀, by rw [hcid₀]; exact hmv⟩
              exact ⟨G col₀, List.mem_map_of_mem G hc₀f,
                by rw [hGid col₀]; exact hcid₀⟩
          · intro card' hcard' col' hcol'
            rcases List.mem_map.1 hcard' with ⟨card, hcard, hcc⟩
            subst hcc
            rcases List.mem_map.1 hcol' with ⟨c, hcf, hcc⟩
            subst hcc
            have hcmem : c ∈ bd.columns := ((hfmem c).1 hcf).1
            have hcne : c.id ≠ colId := ((hfmem c).1 hcf).2
            rw [hHid card, hGid c]
            by_cases hmv : card.column_id = colId
            · have hcc' : (Hc card).column_id = tgt.id := by
                rw [hHc]
                dsimp only
                rw [if_pos hmv]
              rw [hcc', hG]
              dsimp only
              split_ifs with hct
              · have hceq : c = tgt := hcolinj hcmem htgtmem hct
                subst hceq
                rw [List.mem_append]
                constructor
                · intro _
                  rfl
                · intro _
                  right
                  exact (hmem card hcard col hcolmem).2 (hcolid.trans hmv.symm)
              · constructor
                · intro hin
                  exfalso
                  have := (hmem card hcard c hcmem).1 hin
                  exact hcne (this.trans hmv)
                · intro hid
                  exact absurd hid hct
            · have hcc' : (Hc card).column_id = card.column_id := by
                rw [hHc]
                dsimp only
                rw [if_neg hmv]
              rw [hcc', hG]
              dsimp only
              split_ifs with hct
              · have hceq : c = tgt := hcolinj hcmem htgtmem hct
                subst hceq
                rw [List.mem_append]
                constructor
                · rintro (hin | hin)
                  · exact (hmem card hcard c hcmem).1 hin
                  · exfalso
                    have := (hmem card hcard col hcolmem).1 hin
                    exact hmv (by rw [← this, hcolid])
                · intro hid
                  exact Or.inl ((hmem card hcard c hcmem).2 hid)
              · exact hmem card hcard c hcmem
          · intro col' hcol' i hi
            rcases List.mem_map.1 hcol' with ⟨c, hcf, hcc⟩
            subst hcc
            have hcmem : c ∈ bd.columns := ((hfmem c).1 hcf).1
            rw [hG] at hi
            dsimp only at hi
            split_ifs at hi with hct
            · rcases List.mem_append.1 hi with hi | hi
              · obtain ⟨card, hcard, hcid⟩ := hback c hcmem i hi
                exact ⟨Hc card, List.mem_map_of_mem Hc hcard,
                  by rw [hHid card]; exact hcid⟩
              · obtain ⟨card, hcard, hcid⟩ := hback col hcolmem i hi
                exact ⟨Hc card, List.mem_map_of_mem Hc hcard,
                  by rw [hHid card]; exact hcid⟩
            · obtain ⟨card, hcard, hcid⟩ := hback c hcmem i hi
              exact ⟨Hc card, List.mem_map_of_mem Hc hcard,
                by rw [hHid card]; exact hcid⟩

theorem storeStep_consistent {bd : BoardDetail} (h : Consistent bd)
    (op : StoreOp) : Consistent (storeStep bd op) := by
  cases op with
  | addCardOp cardId colId title => exact storeAddCard_consistent h cardId colId title
  | updateCardOp a b c d e => exact storeUpdateCard_consistent h a b c d e
  | moveCardOp a b c => exact storeMoveCard_consistent h a b c
  | deleteCardOp a => exact storeDeleteCard_consistent h a
  | addColumnOp a b => exact storeAddColumn_consistent h a b
  | deleteColumnOp a => exact storeDeleteColumn_consistent h a
  | reorderColumnsOp ids => exact storeReorderColumns_consistent h ids

/-- C10: in `BoardDetail` the card-to-column membership is represented
both by each card's `column_id` and by each column's `card_ids`, and every
state reachable from a consistent one through any sequence of the store's
actions keeps the two representations consistent: each card's `column_id`
names a column of the board, the card's id occurs in that column's
`card_ids` (whose index order is the column's display order) and in no
other column's list, and every `card_ids` entry names a card of the
board. -/
theorem boardDetail_consistency_reachable (ops : List StoreOp)
    (bd : BoardDetail) (h : Consistent bd) : Consistent (storeRun ops bd) := by
  induction ops generalizing bd with
  | nil => exact h
  | cons op ops ih => exact ih (storeStep bd op) (storeStep_consistent h op)

theorem boardDetail_consistency_reachable_witness :
    Consistent c10Board ∧ Consistent (storeRun c10Ops c10Board) :=
  ⟨by decide, boardDetail_consistency_reachable c10Ops c10Board (by decide)⟩

end Baudboard
